import Mathlib

/-!
Verification of the RQuick distributed string-sorting core
(src/src/sorter/RQuick/RQuick.hpp, src/NeuKaDiS/KaDiS/src/RQuick/RQuick.hpp,
src/unnamed/part_000, src/unnamed/part_001).

Shallow embedding conventions:
* a zero-terminated byte string is modelled as the `List ℕ` of its content
  bytes (the terminating 0 byte is implicit; a well-formed string contains
  no 0 byte);
* an indexed string (indexed mode) is a pair `List ℕ × ℕ` of content bytes
  and 64-bit origin index;
* the comparator template parameter `Comp` of the C++ code is modelled as a
  function `lt : α → α → Bool`; the two comparators the repository
  instantiates it with (dss_schimek::StringComparator and
  dss_schimek::IndexStringComparator, src/unnamed/part_000) are embedded
  below as `strLt` and `idxLt`;
* C++ standard library calls (std::lower_bound, std::upper_bound,
  std::merge, std::sort) and the tlx radix sorter are external collaborators;
  they are modelled by their documented contracts on the call sites'
  sorted/partitioned inputs;
* each rank's local buffer is modelled as the list of its string views in
  buffer order; the raw-byte re-materialisation loops of the C++ code copy
  exactly the bytes of those views, so they are content-preserving plumbing.
-/

namespace DSS

/-- Embedding of dss_schimek::StringComparator (src/unnamed/part_000,
lines 21-36): walk both zero-terminated strings while the current bytes are
equal and nonzero, then compare the current bytes.  A list models the bytes
up to (excluding) the terminator, so the empty list stands for a pointer at
the terminating 0 byte. -/
def strLt : List ℕ → List ℕ → Bool
  | [], [] => false
  | [], b :: _ => decide (0 < b)
  | _ :: _, [] => false
  | a :: as, b :: bs =>
    if a = b then (if a = 0 then false else strLt as bs) else decide (a < b)

/-- Embedding of dss_schimek::IndexStringComparator (src/unnamed/part_000,
lines 38-54): byte comparison first; if both strings reach the terminator
simultaneously, compare the 64-bit origin indices. -/
def idxLt : List ℕ × ℕ → List ℕ × ℕ → Bool
  | ([], i), ([], j) => decide (i < j)
  | ([], _), (b :: _, _) => decide (0 < b)
  | (_ :: _, _), ([], _) => false
  | (a :: as, i), (b :: bs, j) =>
    if a = b then (if a = 0 then decide (i < j) else idxLt (as, i) (bs, j))
    else decide (a < b)

/-- Comparator obtained from a decidable linear order; this is the shape in
which the generic theorems below instantiate the `Comp` template parameter. -/
def cmpLt {α : Type _} [LinearOrder α] : α → α → Bool := fun a b => decide (a < b)

/-! ## std::lower_bound / std::upper_bound call sites

std::lower_bound(first, last, s, comp) returns the first position in
[first, last) whose element x has comp(x, s) == false; std::upper_bound
returns the first position whose element x has comp(s, x) == true.  On the
partitioned ranges the code passes, that is the length of the maximal
prefix on which the respective test keeps succeeding. -/

/-- Model of the call std::lower_bound(v.data(), v.data() + v.size(), s, comp)
in RQuick::_internal::locateSplitter: index of the first element x of v with
lt x s false. -/
def lowerBoundIdx {α : Type _} (lt : α → α → Bool) (v : List α) (s : α) : ℕ :=
  (v.takeWhile (fun x => lt x s)).length

/-- Model of the call std::upper_bound(begin_equal_els, v.data() + v.size(),
s, comp) in RQuick::_internal::locateSplitter: first index at or after
start whose element x has lt s x true. -/
def upperBoundFrom {α : Type _} (lt : α → α → Bool) (v : List α) (s : α)
    (start : ℕ) : ℕ :=
  start + ((v.drop start).takeWhile (fun x => !(lt s x))).length

/-- Embedding of RQuick::_internal::locateSplitter
(src/src/sorter/RQuick/RQuick.hpp lines 352-374 and
src/NeuKaDiS/KaDiS/src/RQuick/RQuick.hpp lines 182-204, both identical).
The pointer returned by the C++ function is modelled as an index into v;
bit models the value bit_store.getNextBit(gen) would produce. -/
def locateSplitter {α : Type _} (lt : α → α → Bool) (v : List α) (s : α)
    (bit : Bool) (is_robust : Bool) : ℕ :=
  let begin_equal_els := lowerBoundIdx lt v s
  if !is_robust then begin_equal_els
  else
    let end_equal_els := upperBoundFrom lt v s begin_equal_els
    let opt_split :=
      v.length / 2 + (if v.length % 2 = 1 ∧ bit then 1 else 0)
    if begin_equal_els < opt_split then min opt_split end_equal_els
    else begin_equal_els

/-- First index of v holding an element ≥ s (spec wording for L). -/
def firstGeIdx {α : Type _} [LinearOrder α] (v : List α) (s : α) : ℕ :=
  v.findIdx (fun x => decide (s ≤ x))

/-- First index of v holding an element > s (spec wording for U). -/
def firstGtIdx {α : Type _} [LinearOrder α] (v : List α) (s : α) : ℕ :=
  v.findIdx (fun x => decide (s < x))

/-- Transcription of the spec's LocateSplitter paragraph (spec.md §4.E),
for comparison with the embedded `locateSplitter`: L = first index with
v[L] ≥ s; robust off returns L; else U = first index with v[U] > s,
opt = |v|/2, or |v|/2 + 1 chosen by a random bit when |v| is odd; if L < opt
return min(opt, U), else return L. -/
def locateSplitterSpec {α : Type _} [LinearOrder α] (v : List α) (s : α)
    (bit : Bool) (is_robust : Bool) : ℕ :=
  let L := firstGeIdx v s
  if !is_robust then L
  else
    let U := firstGtIdx v s
    let opt := if v.length % 2 = 1 ∧ bit then v.length / 2 + 1 else v.length / 2
    if L < opt then min opt U else L

section TakeWhileFacts

variable {α : Type _} (p : α → Bool) (l : List α) (d : α)

theorem takeWhile_length_le : (l.takeWhile p).length ≤ l.length := by
  induction l with
  | nil => simp
  | cons a l ih =>
    by_cases h : p a
    · simpa [List.takeWhile_cons, h] using ih
    · simp [List.takeWhile_cons, h]

theorem takeWhile_length_sat {i : ℕ} (hi : i < (l.takeWhile p).length) :
    p (l.getD i d) = true := by
  induction l generalizing i with
  | nil => simp at hi
  | cons a l ih =>
    by_cases h : p a
    · cases i with
      | zero => simpa [h]
      | succ i =>
        simp only [List.takeWhile_cons, h, if_true, List.length_cons] at hi
        exact ih (Nat.lt_of_succ_lt_succ hi)
    · simp [List.takeWhile_cons, h] at hi

theorem takeWhile_length_fail
    (hlt : (l.takeWhile p).length < l.length) :
    p (l.getD (l.takeWhile p).length d) = false := by
  induction l with
  | nil => simp at hlt
  | cons a l ih =>
    by_cases h : p a
    · simp only [List.takeWhile_cons, h, if_true, List.length_cons] at hlt ⊢
      exact ih (Nat.lt_of_succ_lt_succ hlt)
    · simpa [List.takeWhile_cons, h] using h

theorem findIdx_eq_takeWhile_length :
    l.findIdx p = (l.takeWhile (fun x => !(p x))).length := by
  induction l with
  | nil => simp
  | cons a l ih =>
    by_cases h : p a
    · simp [List.findIdx_cons, h]
    · simp [List.findIdx_cons, h, ih]

theorem takeWhile_mono_split (q : α → Bool)
    (himp : ∀ x, p x = true → q x = true) :
    l.takeWhile q
      = l.takeWhile p ++ (l.drop (l.takeWhile p).length).takeWhile q := by
  induction l with
  | nil => simp
  | cons a l ih =>
    by_cases h : p a
    · have hq : q a = true := himp a h
      simp [List.takeWhile_cons, h, hq, ih]
    · simp [List.takeWhile_cons, h]

end TakeWhileFacts

section LocateSplitterFacts

variable {α : Type _} [LinearOrder α]

theorem lowerBoundIdx_eq_firstGeIdx (v : List α) (s : α) :
    lowerBoundIdx cmpLt v s = firstGeIdx v s := by
  rw [firstGeIdx, findIdx_eq_takeWhile_length, lowerBoundIdx]
  have hfun : (fun x : α => cmpLt x s) = (fun x : α => !(decide (s ≤ x))) := by
    funext x
    simp only [cmpLt, ← decide_not]
    exact decide_eq_decide.mpr not_le.symm
  rw [hfun]

theorem upperBoundFrom_eq_firstGtIdx (v : List α) (s : α) :
    upperBoundFrom cmpLt v s (lowerBoundIdx cmpLt v s) = firstGtIdx v s := by
  rw [firstGtIdx, findIdx_eq_takeWhile_length, upperBoundFrom]
  have hsplit := takeWhile_mono_split (fun x => cmpLt x s) v
    (fun x => !(decide (s < x)))
    (by intro x hx; simp only [cmpLt, decide_eq_true_eq] at hx
        simp [not_lt_of_gt hx])
  have hfun : (fun x => !(cmpLt s x)) = (fun x : α => !(decide (s < x))) := by
    funext x; simp [cmpLt]
  rw [hfun, hsplit, List.length_append, lowerBoundIdx]

/-- C4.  LocateSplitter matches its specification: on a locally sorted
vector v and pivot s, the returned index equals the spec's formula (first
index ≥ s when robust mode is off; min(opt, U) or L in robust mode), where
the spec-side quantities firstGeIdx and firstGtIdx indeed denote the first
index holding an element ≥ s, resp. > s. -/
theorem locateSplitter_correct (v : List α) (s : α) (bit is_robust : Bool)
    (hs : List.Sorted (· ≤ ·) v) :
    locateSplitter cmpLt v s bit is_robust = locateSplitterSpec v s bit is_robust
    ∧ (∀ i, i < firstGeIdx v s → v.getD i s < s)
    ∧ (firstGeIdx v s < v.length → s ≤ v.getD (firstGeIdx v s) s)
    ∧ firstGeIdx v s ≤ v.length
    ∧ (∀ i, i < firstGtIdx v s → v.getD i s ≤ s)
    ∧ (firstGtIdx v s < v.length → s < v.getD (firstGtIdx v s) s)
    ∧ firstGtIdx v s ≤ v.length := by
  have hGe : firstGeIdx v s = (v.takeWhile (fun x => !(decide (s ≤ x)))).length :=
    findIdx_eq_takeWhile_length _ v
  have hGt : firstGtIdx v s = (v.takeWhile (fun x => !(decide (s < x)))).length :=
    findIdx_eq_takeWhile_length _ v
  refine ⟨?_, ?_, ?_, ?_, ?_, ?_, ?_⟩
  · cases is_robust with
    | false => simp [locateSplitter, locateSplitterSpec, lowerBoundIdx_eq_firstGeIdx]
    | true =>
      simp only [locateSplitter, locateSplitterSpec, Bool.not_true, Bool.false_eq_true,
        if_false]
      rw [upperBoundFrom_eq_firstGtIdx, lowerBoundIdx_eq_firstGeIdx]
      by_cases hcond : v.length % 2 = 1 ∧ bit = true
      · simp [hcond]
      · simp [hcond]
  · intro i hi
    rw [hGe] at hi
    have := takeWhile_length_sat (fun x => !(decide (s ≤ x))) v s hi
    simpa using this
  · intro hlen
    rw [hGe] at hlen ⊢
    have := takeWhile_length_fail (fun x => !(decide (s ≤ x))) v s hlen
    simpa using this
  · rw [hGe]; exact takeWhile_length_le _ v
  · intro i hi
    rw [hGt] at hi
    have := takeWhile_length_sat (fun x => !(decide (s < x))) v s hi
    simpa using this
  · intro hlen
    rw [hGt] at hlen ⊢
    have := takeWhile_length_fail (fun x => !(decide (s < x))) v s hlen
    simpa using this
  · rw [hGt]; exact takeWhile_length_le _ v

/-- C4 witness: the theorem applied to the sorted vector [1,2,2,3] with
pivot 2 in robust mode with random bit 1. -/
theorem locateSplitter_correct_witness :
    List.Sorted (· ≤ ·) [1, 2, 2, 3]
    ∧ (locateSplitter cmpLt [1, 2, 2, 3] 2 true true
        = locateSplitterSpec [1, 2, 2, 3] 2 true true
      ∧ (∀ i, i < firstGeIdx [1, 2, 2, 3] 2 → [1, 2, 2, 3].getD i 2 < 2)
      ∧ (firstGeIdx [1, 2, 2, 3] 2 < [1, 2, 2, 3].length
          → 2 ≤ [1, 2, 2, 3].getD (firstGeIdx [1, 2, 2, 3] 2) 2)
      ∧ firstGeIdx [1, 2, 2, 3] 2 ≤ [1, 2, 2, 3].length
      ∧ (∀ i, i < firstGtIdx [1, 2, 2, 3] 2 → [1, 2, 2, 3].getD i 2 ≤ 2)
      ∧ (firstGtIdx [1, 2, 2, 3] 2 < [1, 2, 2, 3].length
          → 2 < [1, 2, 2, 3].getD (firstGtIdx [1, 2, 2, 3] 2) 2)
      ∧ firstGtIdx [1, 2, 2, 3] 2 ≤ [1, 2, 2, 3].length) :=
  ⟨by decide, locateSplitter_correct [1, 2, 2, 3] 2 true true (by decide)⟩

end LocateSplitterFacts

section ScenarioS6

/-- Content bytes of the one-character string "a". -/
def strA : List ℕ := [97]

/-- Content bytes of the one-character string "b". -/
def strB : List ℕ := [98]

/-- Scenario S6 input: nine strings, four copies of "a" then five of "b". -/
def v9 : List (List ℕ) := [strA, strA, strA, strA, strB, strB, strB, strB, strB]

/-- C5 counterexample: with pivot "b" in robust mode, locateSplitter on the
S6 vector returns 5, not 4, when the consumed random bit is 1 (|v| = 9 is
odd, so opt becomes 4 + 1 = 5, L = 4 < 5, and min(opt, U) = min(5, 9) = 5).
The claim that the split index is 4 for every state of the random bit
generator is therefore false. -/
theorem locateSplitter_s6_bit1 :
    locateSplitter strLt v9 strB true true = 5
    ∧ ¬ locateSplitter strLt v9 strB true true = 4 := by
  constructor
  · rfl
  · intro h
    have h5 : locateSplitter strLt v9 strB true true = 5 := rfl
    rw [h5] at h
    exact absurd h (by decide)

/-- C5 amended: on the S6 input the robust split index is 4 when the
consumed random bit is 0 and 5 when it is 1. -/
theorem locateSplitter_s6 :
    locateSplitter strLt v9 strB false true = 4
    ∧ locateSplitter strLt v9 strB true true = 5 := ⟨rfl, rfl⟩

end ScenarioS6

section MiddleMost

variable {α : Type _} [Inhabited α]

/-- Embedding of RQuick::_internal::middleMostElements
(src/src/sorter/RQuick/RQuick.hpp lines 262-304 and
src/NeuKaDiS/KaDiS/src/RQuick/RQuick.hpp lines 90-122).  The container is
modelled as the list of its strings in buffer order (in indexed mode each
element carries its index, so the parallel index-collection loop of the
source is the same list operation); bit models bit_gen.getNextBit(async_gen).
The copy loop for i in [begin, begin + k) materialises exactly the elements
at those positions. -/
def middleMostElements (cont : List α) (k : ℕ) (bit : Bool) : List α :=
  if cont.length ≤ k then cont
  else
    let offset := (cont.length - k) / 2
    let shiftCondition := (cont.length % 2 = 0 ∧ k % 2 = 0)
      ∨ (cont.length % 2 = 1 ∧ k % 2 = 1)
    let shift : ℕ := if shiftCondition then 0 else (if bit then 1 else 0)
    (List.range k).map (fun i => cont.getD (offset + shift + i) default)

/-- Shift value in the spec's wording (spec.md §4.D): 0 when n mod 2 and
k mod 2 have the same parity, else one random bit. -/
def mmeShift (n k : ℕ) (bit : Bool) : ℕ :=
  if n % 2 = k % 2 then 0 else (if bit then 1 else 0)

theorem range_map_getD_eq_drop_take (c : List α) (b k : ℕ)
    (hbk : b + k ≤ c.length) (d : α) :
    (List.range k).map (fun i => c.getD (b + i) d) = (c.drop b).take k := by
  apply List.ext_getElem
  · simp
    omega
  · intro i hi₁ hi₂
    simp only [List.getElem_map, List.getElem_range]
    have hib : b + i < c.length := by
      simp at hi₁
      omega
    rw [List.getD_eq_getElem c d hib]
    simp [List.getElem_take, List.getElem_drop]

/-- C6.  MiddleMostPicker: with n = |c|, the function returns a copy of c
when n ≤ k; otherwise, with off = (n − k) / 2 and shift = 0 when n mod 2
and k mod 2 have the same parity and shift equal to one random bit
otherwise, it returns exactly the k elements of c at positions
[off + shift, off + shift + k). -/
theorem middleMostElements_correct (c : List α) (k : ℕ) (bit : Bool) :
    (c.length ≤ k → middleMostElements c k bit = c)
    ∧ (k < c.length →
        middleMostElements c k bit
          = (c.drop ((c.length - k) / 2 + mmeShift c.length k bit)).take k
        ∧ (middleMostElements c k bit).length = k) := by
  constructor
  · intro h
    simp [middleMostElements, h]
  · intro h
    have hnk : ¬ c.length ≤ k := by omega
    have hcondShift :
        (if (c.length % 2 = 0 ∧ k % 2 = 0) ∨ (c.length % 2 = 1 ∧ k % 2 = 1)
          then (0 : ℕ) else (if bit then 1 else 0))
        = mmeShift c.length k bit := by
      unfold mmeShift
      by_cases hpar : c.length % 2 = k % 2
      · have : (c.length % 2 = 0 ∧ k % 2 = 0) ∨ (c.length % 2 = 1 ∧ k % 2 = 1) := by
          omega
        simp [this, hpar]
      · have : ¬ ((c.length % 2 = 0 ∧ k % 2 = 0) ∨ (c.length % 2 = 1 ∧ k % 2 = 1)) := by
          omega
        simp [this, hpar]
    have hcases : mmeShift c.length k bit = 0
        ∨ (mmeShift c.length k bit = 1 ∧ ¬ c.length % 2 = k % 2) := by
      unfold mmeShift
      by_cases hpar : c.length % 2 = k % 2
      · left
        simp [hpar]
      · by_cases hb : bit = true
        · right
          exact ⟨by simp [hpar, hb], hpar⟩
        · left
          simp [hpar, hb]
    have hbound : (c.length - k) / 2 + mmeShift c.length k bit + k ≤ c.length := by
      rcases hcases with h0 | ⟨h1, hp⟩ <;> omega
    have heq : middleMostElements c k bit
        = (c.drop ((c.length - k) / 2 + mmeShift c.length k bit)).take k := by
      unfold middleMostElements
      simp only [hnk, if_false]
      rw [hcondShift]
      exact range_map_getD_eq_drop_take c _ k hbound default
    refine ⟨heq, ?_⟩
    rw [heq]
    simp
    omega

/-- C6 witness: the theorem applied to c = [10, 20, 30, 40, 50], k = 2,
bit = 1 (sizes of different parity, so the shift is the random bit). -/
theorem middleMostElements_correct_witness :
    (2 < [10, 20, 30, 40, 50].length)
    ∧ (middleMostElements [10, 20, 30, 40, 50] 2 true
        = ([10, 20, 30, 40, 50].drop
            ((([10, 20, 30, 40, 50] : List ℕ).length - 2) / 2
              + mmeShift ([10, 20, 30, 40, 50] : List ℕ).length 2 true)).take 2
      ∧ (middleMostElements [10, 20, 30, 40, 50] 2 true).length = 2) :=
  ⟨by decide, (middleMostElements_correct [10, 20, 30, 40, 50] 2 true).2 (by decide)⟩

end MiddleMost

section TwoSeq

variable {α : Type _}

/-- Model of the call std::lower_bound(begin2, end2, x, comp) inside
twoSequenceSelection: first index at or after b2 (and below e2) whose
element y has lt y x false, on the subrange [b2, e2) of B. -/
def lowerBoundIn (lt : α → α → Bool) (B : List α) (b2 e2 : ℕ) (x : α) : ℕ :=
  b2 + (((B.drop b2).take (e2 - b2)).takeWhile (fun y => lt y x)).length

/-- Embedding of RQuick::_internal::twoSequenceSelection
(src/NeuKaDiS/KaDiS/src/RQuick/RQuick.hpp lines 225-287).  The pointer
arguments begin1/end1/begin2/end2 are modelled as indices b1/e1/b2/e2 into
the fixed arrays A and B, and the returned pointer pair as an index pair.
The int64_t rank is a natural number here: the function is only invoked
with 0 ≤ rank ≤ (e1 - b1) + (e2 - b2), and the subtraction
rank - new_rank - 1 happens only under rank > new_rank. -/
def twoSequenceSelection [Inhabited α] (lt : α → α → Bool) (A B : List α) :
    ℕ → ℕ → ℕ → ℕ → ℕ → ℕ × ℕ := fun b1 e1 b2 e2 rank =>
  if h : b1 < e1 then
    let offset1 := (e1 - b1) / 2
    let splitter1 := b1 + offset1
    let splitter2 := lowerBoundIn lt B b2 e2 (A.getD splitter1 default)
    let offset2 := splitter2 - b2
    let new_rank := offset1 + offset2
    if rank < new_rank then
      twoSequenceSelection lt A B b1 splitter1 b2 splitter2 rank
    else if new_rank < rank then
      twoSequenceSelection lt A B (splitter1 + 1) e1 splitter2 e2
        (rank - new_rank - 1)
    else (splitter1, splitter2)
  else (b1, b2 + rank)
termination_by b1 e1 _ _ _ => e1 - b1
decreasing_by
  · omega
  · omega

theorem tss_eq_base [Inhabited α] (lt : α → α → Bool) (A B : List α)
    {b1 e1 : ℕ} (b2 e2 rank : ℕ) (h : ¬ b1 < e1) :
    twoSequenceSelection lt A B b1 e1 b2 e2 rank = (b1, b2 + rank) := by
  rw [twoSequenceSelection]
  simp [h]

theorem tss_eq_left [Inhabited α] (lt : α → α → Bool) (A B : List α)
    {b1 e1 b2 e2 rank : ℕ} (h : b1 < e1)
    (hlt : rank < (e1 - b1) / 2
      + (lowerBoundIn lt B b2 e2 (A.getD (b1 + (e1 - b1) / 2) default) - b2)) :
    twoSequenceSelection lt A B b1 e1 b2 e2 rank
      = twoSequenceSelection lt A B b1 (b1 + (e1 - b1) / 2) b2
          (lowerBoundIn lt B b2 e2 (A.getD (b1 + (e1 - b1) / 2) default))
          rank := by
  rw [twoSequenceSelection]
  simp only [dif_pos h]
  rw [if_pos hlt]

theorem tss_eq_right [Inhabited α] (lt : α → α → Bool) (A B : List α)
    {b1 e1 b2 e2 rank : ℕ} (h : b1 < e1)
    (hgt : (e1 - b1) / 2
      + (lowerBoundIn lt B b2 e2 (A.getD (b1 + (e1 - b1) / 2) default) - b2)
      < rank) :
    twoSequenceSelection lt A B b1 e1 b2 e2 rank
      = twoSequenceSelection lt A B (b1 + (e1 - b1) / 2 + 1) e1
          (lowerBoundIn lt B b2 e2 (A.getD (b1 + (e1 - b1) / 2) default)) e2
          (rank - ((e1 - b1) / 2
            + (lowerBoundIn lt B b2 e2 (A.getD (b1 + (e1 - b1) / 2) default) - b2))
            - 1) := by
  rw [twoSequenceSelection]
  simp only [dif_pos h]
  rw [if_neg (by omega), if_pos hgt]

theorem tss_eq_found [Inhabited α] (lt : α → α → Bool) (A B : List α)
    {b1 e1 b2 e2 rank : ℕ} (h : b1 < e1)
    (heq : rank = (e1 - b1) / 2
      + (lowerBoundIn lt B b2 e2 (A.getD (b1 + (e1 - b1) / 2) default) - b2)) :
    twoSequenceSelection lt A B b1 e1 b2 e2 rank
      = (b1 + (e1 - b1) / 2,
          lowerBoundIn lt B b2 e2 (A.getD (b1 + (e1 - b1) / 2) default)) := by
  rw [twoSequenceSelection]
  simp only [dif_pos h]
  rw [if_neg (by omega), if_neg (by omega)]

theorem sorted_getD_le [LinearOrder α] {A : List α}
    (hA : List.Sorted (· ≤ ·) A) {i j : ℕ} (hij : i ≤ j) (hj : j < A.length)
    (d : α) : A.getD i d ≤ A.getD j d := by
  rcases Nat.lt_or_ge i j with hlt | hge
  · rw [List.getD_eq_getElem A d (lt_trans hlt hj), List.getD_eq_getElem A d hj]
    exact List.pairwise_iff_getElem.mp hA i j (lt_trans hlt hj) hj hlt
  · have : i = j := by omega
    subst this
    exact le_refl _

theorem lowerBoundIn_ge_start (lt : α → α → Bool) (B : List α)
    (b2 e2 : ℕ) (x : α) : b2 ≤ lowerBoundIn lt B b2 e2 x :=
  Nat.le_add_right _ _

theorem lowerBoundIn_le_end (lt : α → α → Bool) (B : List α)
    {b2 e2 : ℕ} (x : α) (h : b2 ≤ e2) : lowerBoundIn lt B b2 e2 x ≤ e2 := by
  unfold lowerBoundIn
  have h1 := takeWhile_length_le (fun y => lt y x) ((B.drop b2).take (e2 - b2))
  have h2 : ((B.drop b2).take (e2 - b2)).length ≤ e2 - b2 := by
    simp
  omega

theorem sub_getD (B : List α) {b2 e2 j : ℕ} (hj1 : b2 ≤ j) (hj2 : j < e2)
    (he2 : e2 ≤ B.length) (d : α) :
    ((B.drop b2).take (e2 - b2)).getD (j - b2) d = B.getD j d := by
  have hjlen : j < B.length := lt_of_lt_of_le hj2 he2
  have hlen : j - b2 < ((B.drop b2).take (e2 - b2)).length := by
    simp
    omega
  rw [List.getD_eq_getElem _ _ hlen, List.getD_eq_getElem _ _ hjlen]
  rw [List.getElem_take, List.getElem_drop]
  have hidx : b2 + (j - b2) = j := by omega
  simp [hidx]

theorem lowerBoundIn_lt_pivot (lt : α → α → Bool) (B : List α)
    {b2 e2 : ℕ} (x : α) (hb2e2 : b2 ≤ e2) (he2 : e2 ≤ B.length) (d : α) :
    ∀ j, b2 ≤ j → j < lowerBoundIn lt B b2 e2 x → lt (B.getD j d) x = true := by
  intro j hj1 hj2
  have hje2 : j < e2 := lt_of_lt_of_le hj2 (lowerBoundIn_le_end lt B x hb2e2)
  unfold lowerBoundIn at hj2
  have hjs : j - b2
      < (((B.drop b2).take (e2 - b2)).takeWhile (fun y => lt y x)).length := by
    omega
  have hsat := takeWhile_length_sat (fun y => lt y x)
    ((B.drop b2).take (e2 - b2)) d hjs
  rwa [sub_getD B hj1 hje2 he2 d] at hsat

theorem lowerBoundIn_ge_pivot [LinearOrder α] {B : List α}
    (hB : List.Sorted (· ≤ ·) B) {b2 e2 : ℕ} (x : α)
    (hb2e2 : b2 ≤ e2) (he2 : e2 ≤ B.length) (d : α) :
    ∀ j, lowerBoundIn cmpLt B b2 e2 x ≤ j → j < e2 → x ≤ B.getD j d := by
  intro j hj1 hj2
  have hLe2 : lowerBoundIn cmpLt B b2 e2 x < e2 := lt_of_le_of_lt hj1 hj2
  have hLb2 : b2 ≤ lowerBoundIn cmpLt B b2 e2 x := lowerBoundIn_ge_start _ _ _ _ _
  have hsublen : ((B.drop b2).take (e2 - b2)).length = e2 - b2 := by
    simp
    omega
  have htwlt :
      (((B.drop b2).take (e2 - b2)).takeWhile (fun y => cmpLt y x)).length
        < ((B.drop b2).take (e2 - b2)).length := by
    unfold lowerBoundIn at hLe2
    omega
  have hfail := takeWhile_length_fail (fun y => cmpLt y x)
    ((B.drop b2).take (e2 - b2)) d htwlt
  have hLpos : ((B.drop b2).take (e2 - b2)).getD
      (((B.drop b2).take (e2 - b2)).takeWhile (fun y => cmpLt y x)).length d
      = B.getD (lowerBoundIn cmpLt B b2 e2 x) d := by
    have := sub_getD B hLb2 hLe2 he2 d
    unfold lowerBoundIn at this ⊢
    have hrw : b2
        + (((B.drop b2).take (e2 - b2)).takeWhile (fun y => cmpLt y x)).length
        - b2
        = (((B.drop b2).take (e2 - b2)).takeWhile (fun y => cmpLt y x)).length := by
      omega
    rwa [hrw] at this
  rw [hLpos] at hfail
  have hxL : x ≤ B.getD (lowerBoundIn cmpLt B b2 e2 x) d := by
    have : ¬ (B.getD (lowerBoundIn cmpLt B b2 e2 x) d < x) := by
      simp only [cmpLt] at hfail
      rw [decide_eq_false_iff_not] at hfail
      exact hfail
    exact not_lt.mp this
  exact le_trans hxL (sorted_getD_le hB hj1 (lt_of_lt_of_le hj2 he2) d)

theorem twoSequenceSelection_invariant [LinearOrder α] [Inhabited α]
    (A B : List α) (hA : List.Sorted (· ≤ ·) A) (hB : List.Sorted (· ≤ ·) B) :
    ∀ (n b1 e1 b2 e2 rank : ℕ), e1 - b1 ≤ n →
    b1 ≤ e1 → e1 ≤ A.length → b2 ≤ e2 → e2 ≤ B.length →
    rank ≤ (e1 - b1) + (e2 - b2) →
    b1 ≤ (twoSequenceSelection cmpLt A B b1 e1 b2 e2 rank).1
    ∧ (twoSequenceSelection cmpLt A B b1 e1 b2 e2 rank).1 ≤ e1
    ∧ b2 ≤ (twoSequenceSelection cmpLt A B b1 e1 b2 e2 rank).2
    ∧ (twoSequenceSelection cmpLt A B b1 e1 b2 e2 rank).2 ≤ e2
    ∧ ((twoSequenceSelection cmpLt A B b1 e1 b2 e2 rank).1 - b1)
        + ((twoSequenceSelection cmpLt A B b1 e1 b2 e2 rank).2 - b2) = rank
    ∧ (∀ i, b1 ≤ i → i < (twoSequenceSelection cmpLt A B b1 e1 b2 e2 rank).1 →
        ∀ j, (twoSequenceSelection cmpLt A B b1 e1 b2 e2 rank).2 ≤ j → j < e2 →
          A.getD i default ≤ B.getD j default)
    ∧ (∀ j, b2 ≤ j → j < (twoSequenceSelection cmpLt A B b1 e1 b2 e2 rank).2 →
        ∀ i, (twoSequenceSelection cmpLt A B b1 e1 b2 e2 rank).1 ≤ i → i < e1 →
          B.getD j default < A.getD i default) := by
  intro n
  induction n with
  | zero =>
    intro b1 e1 b2 e2 rank h0 hb1e1 he1 hb2e2 he2 hrank
    have hbe : ¬ b1 < e1 := by omega
    rw [tss_eq_base cmpLt A B b2 e2 rank hbe]
    refine ⟨le_refl _, hb1e1, by omega, by omega, by omega, ?_, ?_⟩
    · intro i hi1 hi2 _ _ _
      exact absurd (lt_of_le_of_lt hi1 hi2) (lt_irrefl _)
    · intro j _ _ i hi1 hi2
      exact absurd (lt_of_le_of_lt hi1 hi2) (by omega)
  | succ n ih =>
    intro b1 e1 b2 e2 rank h0 hb1e1 he1 hb2e2 he2 hrank
    by_cases hbe : b1 < e1
    · -- the loop body; abbreviations follow the source's locals
      have hs1lt : b1 + (e1 - b1) / 2 < e1 := by omega
      have hs1A : b1 + (e1 - b1) / 2 < A.length := lt_of_lt_of_le hs1lt he1
      have hs2ge : b2 ≤ lowerBoundIn cmpLt B b2 e2
          (A.getD (b1 + (e1 - b1) / 2) default) :=
        lowerBoundIn_ge_start _ _ _ _ _
      have hs2le : lowerBoundIn cmpLt B b2 e2
          (A.getD (b1 + (e1 - b1) / 2) default) ≤ e2 :=
        lowerBoundIn_le_end _ _ _ hb2e2
      have hlow : ∀ j, b2 ≤ j →
          j < lowerBoundIn cmpLt B b2 e2 (A.getD (b1 + (e1 - b1) / 2) default) →
          B.getD j default < A.getD (b1 + (e1 - b1) / 2) default := by
        intro j hj1 hj2
        have := lowerBoundIn_lt_pivot cmpLt B
          (A.getD (b1 + (e1 - b1) / 2) default) hb2e2 he2 default j hj1 hj2
        simp only [cmpLt, decide_eq_true_eq] at this
        exact this
      have hhigh : ∀ j,
          lowerBoundIn cmpLt B b2 e2 (A.getD (b1 + (e1 - b1) / 2) default) ≤ j →
          j < e2 → A.getD (b1 + (e1 - b1) / 2) default ≤ B.getD j default :=
        lowerBoundIn_ge_pivot hB _ hb2e2 he2 default
      have hAle : ∀ i, i ≤ b1 + (e1 - b1) / 2 →
          A.getD i default ≤ A.getD (b1 + (e1 - b1) / 2) default := by
        intro i hi
        exact sorted_getD_le hA hi hs1A default
      have hAge : ∀ i, b1 + (e1 - b1) / 2 ≤ i → i < A.length →
          A.getD (b1 + (e1 - b1) / 2) default ≤ A.getD i default := by
        intro i hi1 hi2
        exact sorted_getD_le hA hi1 hi2 default
      rcases lt_trichotomy rank ((e1 - b1) / 2
          + (lowerBoundIn cmpLt B b2 e2 (A.getD (b1 + (e1 - b1) / 2) default)
            - b2)) with hr | hr | hr
      · -- rank < new_rank: recurse on the left parts
        rw [tss_eq_left cmpLt A B hbe hr]
        obtain ⟨g1, g2, g3, g4, g5, g6, g7⟩ := ih b1 (b1 + (e1 - b1) / 2) b2
          (lowerBoundIn cmpLt B b2 e2 (A.getD (b1 + (e1 - b1) / 2) default))
          rank (by omega) (by omega) (by omega) hs2ge (by omega) (by omega)
        refine ⟨g1, by omega, g3, by omega, g5, ?_, ?_⟩
        · intro i hi1 hi2 j hj1 hj2
          by_cases hjc : j < lowerBoundIn cmpLt B b2 e2
              (A.getD (b1 + (e1 - b1) / 2) default)
          · exact g6 i hi1 hi2 j hj1 hjc
          · exact le_trans (hAle i (by omega)) (hhigh j (by omega) hj2)
        · intro j hj1 hj2 i hi1 hi2
          by_cases hic : i < b1 + (e1 - b1) / 2
          · exact g7 j hj1 hj2 i hi1 hic
          · exact lt_of_lt_of_le (hlow j hj1 (by omega))
              (hAge i (by omega) (by omega))
      · -- rank == new_rank: return (splitter1, splitter2)
        rw [tss_eq_found cmpLt A B hbe hr]
        refine ⟨by omega, by omega, hs2ge, hs2le, by omega, ?_, ?_⟩
        · intro i hi1 hi2 j hj1 hj2
          exact le_trans (hAle i (by omega)) (hhigh j hj1 hj2)
        · intro j hj1 hj2 i hi1 hi2
          exact lt_of_lt_of_le (hlow j hj1 hj2) (hAge i hi1 (by omega))
      · -- rank > new_rank: recurse on the right parts
        rw [tss_eq_right cmpLt A B hbe hr]
        obtain ⟨g1, g2, g3, g4, g5, g6, g7⟩ := ih (b1 + (e1 - b1) / 2 + 1) e1
          (lowerBoundIn cmpLt B b2 e2 (A.getD (b1 + (e1 - b1) / 2) default)) e2
          (rank - ((e1 - b1) / 2
            + (lowerBoundIn cmpLt B b2 e2 (A.getD (b1 + (e1 - b1) / 2) default)
              - b2)) - 1)
          (by omega) (by omega) he1 (by omega) he2 (by omega)
        refine ⟨by omega, g2, by omega, g4, by omega, ?_, ?_⟩
        · intro i hi1 hi2 j hj1 hj2
          by_cases hic : b1 + (e1 - b1) / 2 + 1 ≤ i
          · exact g6 i hic hi2 j hj1 hj2
          · exact le_trans (hAle i (by omega)) (hhigh j (by omega) hj2)
        · intro j hj1 hj2 i hi1 hi2
          by_cases hjc : lowerBoundIn cmpLt B b2 e2
              (A.getD (b1 + (e1 - b1) / 2) default) ≤ j
          · exact g7 j hjc hj2 i hi1 hi2
          · exact lt_of_lt_of_le (hlow j hj1 (by omega))
              (hAge i (by omega) (by omega))
    · rw [tss_eq_base cmpLt A B b2 e2 rank hbe]
      refine ⟨le_refl _, hb1e1, by omega, by omega, by omega, ?_, ?_⟩
      · intro i hi1 hi2 _ _ _
        exact absurd (lt_of_le_of_lt hi1 hi2) (lt_irrefl _)
      · intro j _ _ i hi1 hi2
        exact absurd (lt_of_le_of_lt hi1 hi2) (by omega)

/-- C3.  TwoSequenceSelection correctness: for sorted A and B and every
rank k with 0 ≤ k ≤ |A| + |B|, the returned pair (a, b) satisfies
a + b = k, a ≤ |A|, b ≤ |B|, and the prefixes A[0..a) and B[0..b) are
exactly the k smallest elements of A ∪ B under the tie-broken comparator:
every selected element of A is ≤ every unselected element of B (an equal
element of A ranks before it), and every selected element of B is strictly
smaller than every unselected element of A (an equal element of A ranks
before the B copy). -/
theorem twoSequenceSelection_correct [LinearOrder α] [Inhabited α]
    (A B : List α) (k : ℕ)
    (hA : List.Sorted (· ≤ ·) A) (hB : List.Sorted (· ≤ ·) B)
    (hk : k ≤ A.length + B.length) :
    (twoSequenceSelection cmpLt A B 0 A.length 0 B.length k).1
      + (twoSequenceSelection cmpLt A B 0 A.length 0 B.length k).2 = k
    ∧ (twoSequenceSelection cmpLt A B 0 A.length 0 B.length k).1 ≤ A.length
    ∧ (twoSequenceSelection cmpLt A B 0 A.length 0 B.length k).2 ≤ B.length
    ∧ (∀ i, i < (twoSequenceSelection cmpLt A B 0 A.length 0 B.length k).1 →
        ∀ j, (twoSequenceSelection cmpLt A B 0 A.length 0 B.length k).2 ≤ j →
          j < B.length → A.getD i default ≤ B.getD j default)
    ∧ (∀ j, j < (twoSequenceSelection cmpLt A B 0 A.length 0 B.length k).2 →
        ∀ i, (twoSequenceSelection cmpLt A B 0 A.length 0 B.length k).1 ≤ i →
          i < A.length → B.getD j default < A.getD i default) := by
  obtain ⟨g1, g2, g3, g4, g5, g6, g7⟩ :=
    twoSequenceSelection_invariant A B hA hB A.length 0 A.length 0 B.length k
      (by omega) (by omega) (le_refl _) (by omega) (le_refl _) (by omega)
  refine ⟨by omega, g2, g4, ?_, ?_⟩
  · intro i hi2 j hj1 hj2
    exact g6 i (by omega) hi2 j hj1 hj2
  · intro j hj2 i hi1 hi2
    exact g7 j (by omega) hj2 i hi1 hi2

/-- C3 witness: scenario S5 of the spec, A = [1,3,5,7], B = [2,3,6,8],
k = 4; the selection returns (a, b) = (2, 2) (prefix {1, 3} ∪ {2, 3}). -/
theorem twoSequenceSelection_correct_witness :
    List.Sorted (· ≤ ·) ([1, 3, 5, 7] : List ℕ)
    ∧ List.Sorted (· ≤ ·) ([2, 3, 6, 8] : List ℕ)
    ∧ (4 ≤ ([1, 3, 5, 7] : List ℕ).length + ([2, 3, 6, 8] : List ℕ).length)
    ∧ twoSequenceSelection cmpLt [1, 3, 5, 7] [2, 3, 6, 8] 0 4 0 4 4 = (2, 2)
    ∧ ((twoSequenceSelection cmpLt ([1, 3, 5, 7] : List ℕ) [2, 3, 6, 8]
          0 ([1, 3, 5, 7] : List ℕ).length 0 ([2, 3, 6, 8] : List ℕ).length 4).1
        + (twoSequenceSelection cmpLt ([1, 3, 5, 7] : List ℕ) [2, 3, 6, 8]
          0 ([1, 3, 5, 7] : List ℕ).length 0 ([2, 3, 6, 8] : List ℕ).length 4).2
        = 4) := by
  refine ⟨by decide, by decide, by decide, ?_, ?_⟩
  · rw [tss_eq_found cmpLt [1, 3, 5, 7] [2, 3, 6, 8] (by decide) (by decide)]
    decide
  · exact (twoSequenceSelection_correct [1, 3, 5, 7] [2, 3, 6, 8] 4
      (by decide) (by decide) (by decide)).1

/-- C10.  Termination of twoSequenceSelection: each iteration of the
shrinking binary-search loop that does not return strictly decreases the
length end1 - begin1 of the first range by at least one (in both the
left-recursion, whose new end is splitter1 = b1 + (e1-b1)/2, and the
right-recursion, whose new begin is splitter1 + 1), and at loop exit
(b1 = e1) the remaining rank satisfies rank ≤ e2 - b2, so the function is
total and the returned positions lie within the input ranges. -/
theorem twoSequenceSelection_terminates [LinearOrder α] [Inhabited α]
    (A B : List α) (b1 e1 b2 e2 rank : ℕ)
    (hA : List.Sorted (· ≤ ·) A) (hB : List.Sorted (· ≤ ·) B)
    (hb1e1 : b1 ≤ e1) (he1 : e1 ≤ A.length)
    (hb2e2 : b2 ≤ e2) (he2 : e2 ≤ B.length)
    (hrank : rank ≤ (e1 - b1) + (e2 - b2)) :
    (b1 < e1 →
      (b1 + (e1 - b1) / 2) - b1 < e1 - b1
      ∧ e1 - (b1 + (e1 - b1) / 2 + 1) < e1 - b1)
    ∧ (¬ b1 < e1 →
        twoSequenceSelection cmpLt A B b1 e1 b2 e2 rank = (b1, b2 + rank)
        ∧ b2 + rank ≤ e2)
    ∧ b1 ≤ (twoSequenceSelection cmpLt A B b1 e1 b2 e2 rank).1
    ∧ (twoSequenceSelection cmpLt A B b1 e1 b2 e2 rank).1 ≤ e1
    ∧ b2 ≤ (twoSequenceSelection cmpLt A B b1 e1 b2 e2 rank).2
    ∧ (twoSequenceSelection cmpLt A B b1 e1 b2 e2 rank).2 ≤ e2 := by
  obtain ⟨g1, g2, g3, g4, _, _, _⟩ :=
    twoSequenceSelection_invariant A B hA hB (e1 - b1) b1 e1 b2 e2 rank
      (le_refl _) hb1e1 he1 hb2e2 he2 hrank
  refine ⟨?_, ?_, g1, g2, g3, g4⟩
  · intro h
    omega
  · intro h
    refine ⟨tss_eq_base cmpLt A B b2 e2 rank h, ?_⟩
    omega

/-- C10 witness: the theorem applied to the S5 data with a nonempty first
range. -/
theorem twoSequenceSelection_terminates_witness :
    (List.Sorted (· ≤ ·) ([1, 3, 5, 7] : List ℕ)
      ∧ List.Sorted (· ≤ ·) ([2, 3, 6, 8] : List ℕ))
    ∧ ((0 < 4 →
        (0 + (4 - 0) / 2) - 0 < 4 - 0
        ∧ 4 - (0 + (4 - 0) / 2 + 1) < 4 - 0)
      ∧ (¬ 0 < 4 →
          twoSequenceSelection cmpLt ([1, 3, 5, 7] : List ℕ) [2, 3, 6, 8]
            0 4 0 4 3 = (0, 0 + 3)
          ∧ 0 + 3 ≤ 4)
      ∧ 0 ≤ (twoSequenceSelection cmpLt ([1, 3, 5, 7] : List ℕ) [2, 3, 6, 8]
          0 4 0 4 3).1
      ∧ (twoSequenceSelection cmpLt ([1, 3, 5, 7] : List ℕ) [2, 3, 6, 8]
          0 4 0 4 3).1 ≤ 4
      ∧ 0 ≤ (twoSequenceSelection cmpLt ([1, 3, 5, 7] : List ℕ) [2, 3, 6, 8]
          0 4 0 4 3).2
      ∧ (twoSequenceSelection cmpLt ([1, 3, 5, 7] : List ℕ) [2, 3, 6, 8]
          0 4 0 4 3).2 ≤ 4) :=
  ⟨⟨by decide, by decide⟩,
    twoSequenceSelection_terminates [1, 3, 5, 7] [2, 3, 6, 8] 0 4 0 4 3
      (by decide) (by decide) (by decide) (by decide) (by decide) (by decide)
      (by decide)⟩

end TwoSeq

section IndexedExchange

/-- Little-endian byte encoding of one 64-bit index, as it appears on the
wire of the tag+1 stream (MPI_Isend of indices.data() over
indices.size() * sizeof(uint64_t) MPI_BYTE elements on a little-endian
host). -/
def encodeLE64 (x : ℕ) : List ℕ :=
  (List.range 8).map (fun j => x / 256 ^ j % 256)

/-- Wire image of the whole index vector: the packed concatenation of the
8-byte little-endian encodings, one per string. -/
def encodeIndices (idxs : List ℕ) : List ℕ :=
  (idxs.map encodeLE64).flatten

/-- Value of the j-th uint64 slot after the received bytes are laid down in
memory. -/
def decodeLE64At (wire : List ℕ) (j : ℕ) : ℕ :=
  (List.range 8).foldr (fun i acc => wire.getD (8 * j + i) 0 * 256 ^ i + acc) 0

/-- Receive side of the index stream in RQuick::Data::exchange
(src/src/sorter/RQuick/RQuick.hpp lines 102-128): MPI_Probe /
MPI_Get_count with MPI_BYTE yields recv_indices_size = wire.length bytes;
the code then calls returnData.indices.resize(recv_indices_size) on the
std::vector<uint64_t>, creating wire.length value-initialised (zero)
64-bit entries, and MPI_Irecv deposits wire.length bytes, i.e. fills only
the first wire.length / 8 entries with the partner's indices. -/
def recvIndicesVector (wire : List ℕ) : List ℕ :=
  (List.range wire.length).map
    (fun j => if j < wire.length / 8 then decodeLE64At wire j else 0)

/-- One side's Data object (rawStrings byte blob plus 64-bit index vector),
mirroring RQuick::Data. -/
structure ExchData where
  rawStrings : List ℕ
  indices : List ℕ
deriving DecidableEq

/-- Data received from the partner by RQuick::Data::exchange in indexed
mode: the byte stream of tag is delivered unchanged, and the index stream
of tag+1 goes through the byte-counted resize described in
recvIndicesVector. -/
def exchangeRecvIndexed (partner : ExchData) : ExchData :=
  { rawStrings := partner.rawStrings,
    indices := recvIndicesVector (encodeIndices partner.indices) }

/-- C7 evaluation at the failing input: when the partner sends one string
("k\0") with one index 42, the receiver's indices vector ends up with
8 entries [42, 0, 0, 0, 0, 0, 0, 0] instead of the single entry [42]: the
code resizes the uint64_t vector by the probed BYTE count instead of the
byte count divided by sizeof(uint64_t), so the received Data does not hold
one 64-bit index per string of the byte stream. -/
theorem exchange_indexed_resize_bug :
    (exchangeRecvIndexed ⟨[107, 0], [42]⟩).rawStrings = [107, 0]
    ∧ (exchangeRecvIndexed ⟨[107, 0], [42]⟩).indices
        = [42, 0, 0, 0, 0, 0, 0, 0]
    ∧ (exchangeRecvIndexed ⟨[107, 0], [42]⟩).indices.length = 8
    ∧ ¬ (exchangeRecvIndexed ⟨[107, 0], [42]⟩).indices.length = 1 := by
  refine ⟨rfl, by decide, by decide, by decide⟩

end IndexedExchange

section Fold

/-- Parse a raw byte blob into its zero-terminated strings: the string-view
table a StringContainer builds from a received blob (strings() /
make_string_set()), with each view given by its content bytes. -/
def parseStrings (l : List ℕ) : List (List ℕ) :=
  if h : l = [] then []
  else
    (l.takeWhile (fun b => b != 0))
      :: parseStrings (l.drop ((l.takeWhile (fun b => b != 0)).length + 1))
termination_by l.length
decreasing_by
  have : l.length ≠ 0 := by
    intro hc
    exact h (List.eq_nil_of_length_eq_zero hc)
  simp
  omega

/-- Invariant of a StringBuffer byte blob (spec.md §3): a concatenation of
zero-terminated strings whose contents contain no 0 byte. -/
def IsWireFormat (l : List ℕ) : Prop :=
  ∃ strs : List (List ℕ),
    (∀ s ∈ strs, ¬ (0 : ℕ) ∈ s) ∧ l = (strs.map (fun s => s ++ [0])).flatten

theorem takeWhile_append_stop (s r : List ℕ) (h0 : ¬ (0 : ℕ) ∈ s) :
    (s ++ 0 :: r).takeWhile (fun b => b != 0) = s := by
  induction s with
  | nil => simp
  | cons a s ih =>
    have ha : a ≠ 0 := by
      intro hc
      exact h0 (by simp [hc])
    have hs : ¬ (0 : ℕ) ∈ s := fun hc => h0 (by simp [hc])
    simp only [List.cons_append, List.takeWhile_cons]
    simp [ha, ih hs]

theorem parseStrings_flatten (strs : List (List ℕ)) (b : List ℕ)
    (h0 : ∀ s ∈ strs, ¬ (0 : ℕ) ∈ s) :
    parseStrings ((strs.map (fun s => s ++ [0])).flatten ++ b)
      = strs ++ parseStrings b := by
  induction strs with
  | nil => simp
  | cons s rest ih =>
    have hs0 : ¬ (0 : ℕ) ∈ s := h0 s (by simp)
    have hrest : ∀ t ∈ rest, ¬ (0 : ℕ) ∈ t := fun t ht => h0 t (by simp [ht])
    have hne : (s ++ [0]) ++ ((rest.map (fun s => s ++ [0])).flatten ++ b) ≠ [] := by
      simp
    rw [List.map_cons, List.flatten_cons, List.append_assoc]
    rw [parseStrings]
    simp only [dif_neg hne]
    have harr : (s ++ [0]) ++ ((rest.map (fun s => s ++ [0])).flatten ++ b)
        = s ++ (0 :: ((rest.map (fun s => s ++ [0])).flatten ++ b)) := by
      simp
    rw [harr, takeWhile_append_stop s _ hs0]
    have hdrop : (s ++ (0 :: ((rest.map (fun s => s ++ [0])).flatten ++ b))).drop
        (s.length + 1) = (rest.map (fun s => s ++ [0])).flatten ++ b := by
      rw [List.drop_append_eq_append_drop]
      simp
    rw [hdrop, ih hrest]
    simp

theorem parseStrings_nil : parseStrings ([] : List ℕ) = [] := by
  rw [parseStrings]
  simp

theorem parseStrings_of_wire {a : List ℕ} (hwf : IsWireFormat a) :
    ∀ b, parseStrings (a ++ b) = parseStrings a ++ parseStrings b := by
  obtain ⟨strs, h0, rfl⟩ := hwf
  intro b
  rw [parseStrings_flatten strs b h0]
  have hflat := parseStrings_flatten strs [] h0
  simp only [List.append_nil] at hflat
  rw [hflat, parseStrings_nil]
  simp

/-- Largest power of two that is at most P, modelling the call
tlx::round_down_to_power_of_two(nprocs) in RQuick::_internal::sort. -/
def pow2Le (P : ℕ) : ℕ := 2 ^ Nat.log2 P

theorem pow2Le_le {P : ℕ} (h : 1 ≤ P) : pow2Le P ≤ P :=
  Nat.log2_self_le (by omega)

theorem pow2Le_gt_half {P : ℕ} (h : 1 ≤ P) : P < 2 * pow2Le P := by
  have := Nat.lt_log2_self (n := P)
  unfold pow2Le
  rw [pow_succ] at this
  omega

theorem range_map_getD {β : Type _} (n r : ℕ) (f : ℕ → β) (dflt : β)
    (hr : r < n) :
    (((List.range n).map f).getD r dflt) = f r := by
  have hlen : r < ((List.range n).map f).length := by simp [hr]
  rw [List.getD_eq_getElem _ _ hlen]
  simp

/-- Embedding of the fold-in step of RQuick::_internal::sort
(src/src/sorter/RQuick/RQuick.hpp lines 859-917): with P = world.length
and pow = pow2Le P, rank r < P - pow receives from source pow + r and
appends the received blob to its own (Data::IReceiveAppend resizes
rawStrings and deposits the bytes after the existing ones); ranks in
[P - pow, pow) keep their blob; exile ranks r ≥ pow send their blob to
r - pow, clear, and return the empty container. -/
def foldToPow2 (world : List (List ℕ)) : List (List ℕ) :=
  (List.range world.length).map (fun r =>
    if r < world.length - pow2Le world.length then
      world.getD r [] ++ world.getD (pow2Le world.length + r) []
    else if r < pow2Le world.length then world.getD r []
    else [])

/-- C8.  FoldToPow2 postcondition: with Q the largest power of two at most
P, after the fold-in step every exile rank r ≥ Q holds the empty buffer,
every receiver rank r < P - Q holds its own strings followed by exactly the
strings of exile rank Q + r, and the multiset of strings over the active
ranks [0..Q) equals the multiset over the whole original group. -/
theorem foldToPow2_conservation (world : List (List ℕ))
    (hP : 1 ≤ world.length)
    (hwf : ∀ blob ∈ world, IsWireFormat blob) :
    (∀ r, pow2Le world.length ≤ r → r < world.length →
      (foldToPow2 world).getD r [] = [])
    ∧ (∀ r, r < world.length - pow2Le world.length →
        parseStrings ((foldToPow2 world).getD r [])
          = parseStrings (world.getD r [])
            ++ parseStrings (world.getD (pow2Le world.length + r) []))
    ∧ (Finset.range (pow2Le world.length)).sum
        (fun r => (parseStrings ((foldToPow2 world).getD r []) : Multiset (List ℕ)))
      = (Finset.range world.length).sum
        (fun r => (parseStrings (world.getD r []) : Multiset (List ℕ))) := by
  set P := world.length with hPdef
  set Q := pow2Le world.length with hQdef
  have hQle : Q ≤ P := pow2Le_le hP
  have hQhalf : P < 2 * Q := pow2Le_gt_half hP
  have hmem : ∀ r, r < P → world.getD r [] ∈ world := by
    intro r hr
    rw [List.getD_eq_getElem _ _ hr]
    exact List.getElem_mem hr
  have hstep : ∀ r, r < P → (foldToPow2 world).getD r []
      = if r < P - Q then world.getD r [] ++ world.getD (Q + r) []
        else if r < Q then world.getD r [] else [] := by
    intro r hr
    unfold foldToPow2
    rw [← hPdef, ← hQdef]
    exact range_map_getD P r _ [] hr
  refine ⟨?_, ?_, ?_⟩
  · intro r hr1 hr2
    rw [hstep r hr2]
    have h1 : ¬ r < P - Q := by omega
    have h2 : ¬ r < Q := by omega
    simp [h1, h2]
  · intro r hr
    have hrP : r < P := by omega
    rw [hstep r hrP]
    simp only [hr, if_true]
    exact parseStrings_of_wire (hwf _ (hmem r hrP)) _
  · have hsum1 : (Finset.range Q).sum
        (fun r => (parseStrings ((foldToPow2 world).getD r []) : Multiset (List ℕ)))
        = (Finset.range (P - Q)).sum
            (fun r => (parseStrings (world.getD r []) : Multiset (List ℕ))
              + (parseStrings (world.getD (Q + r) []) : Multiset (List ℕ)))
          + (Finset.Ico (P - Q) Q).sum
            (fun r => (parseStrings (world.getD r []) : Multiset (List ℕ))) := by
      rw [Finset.range_eq_Ico, ← Finset.sum_Ico_consecutive _ (by omega : 0 ≤ P - Q) (by omega : P - Q ≤ Q)]
      congr 1
      · rw [← Finset.range_eq_Ico]
        apply Finset.sum_congr rfl
        intro r hr
        rw [Finset.mem_range] at hr
        rw [hstep r (by omega)]
        simp only [hr, if_true]
        rw [parseStrings_of_wire (hwf _ (hmem r (by omega))) _]
        simp
      · apply Finset.sum_congr rfl
        intro r hr
        rw [Finset.mem_Ico] at hr
        rw [hstep r (by omega)]
        have h1 : ¬ r < P - Q := by omega
        simp [h1, hr.2]
    have hsum2 : (Finset.range P).sum
        (fun r => (parseStrings (world.getD r []) : Multiset (List ℕ)))
        = (Finset.range (P - Q)).sum
            (fun r => (parseStrings (world.getD r []) : Multiset (List ℕ)))
          + (Finset.Ico (P - Q) Q).sum
            (fun r => (parseStrings (world.getD r []) : Multiset (List ℕ)))
          + (Finset.Ico Q P).sum
            (fun r => (parseStrings (world.getD r []) : Multiset (List ℕ))) := by
      rw [Finset.range_eq_Ico,
        ← Finset.sum_Ico_consecutive _ (by omega : 0 ≤ Q) (by omega : Q ≤ P),
        ← Finset.sum_Ico_consecutive _ (by omega : 0 ≤ P - Q) (by omega : P - Q ≤ Q),
        ← Finset.range_eq_Ico]
    have hsum3 : (Finset.Ico Q P).sum
        (fun r => (parseStrings (world.getD r []) : Multiset (List ℕ)))
        = (Finset.range (P - Q)).sum
            (fun r => (parseStrings (world.getD (Q + r) []) : Multiset (List ℕ))) := by
      rw [Finset.sum_Ico_eq_sum_range]
    rw [hsum1, hsum2, hsum3]
    rw [Finset.sum_add_distrib]
    abel

/-- C8 witness: P = 3 ranks holding "a", "b", "c"; Q = 2, rank 0 receives
rank 2's "c", rank 2 becomes the empty exile. -/
theorem foldToPow2_conservation_witness :
    (1 ≤ ([[97, 0], [98, 0], [99, 0]] : List (List ℕ)).length)
    ∧ (∀ blob ∈ ([[97, 0], [98, 0], [99, 0]] : List (List ℕ)), IsWireFormat blob)
    ∧ ((∀ r, pow2Le ([[97, 0], [98, 0], [99, 0]] : List (List ℕ)).length ≤ r →
          r < ([[97, 0], [98, 0], [99, 0]] : List (List ℕ)).length →
          (foldToPow2 [[97, 0], [98, 0], [99, 0]]).getD r [] = [])
      ∧ (∀ r, r < ([[97, 0], [98, 0], [99, 0]] : List (List ℕ)).length
            - pow2Le ([[97, 0], [98, 0], [99, 0]] : List (List ℕ)).length →
          parseStrings ((foldToPow2 [[97, 0], [98, 0], [99, 0]]).getD r [])
            = parseStrings (([[97, 0], [98, 0], [99, 0]] : List (List ℕ)).getD r [])
              ++ parseStrings (([[97, 0], [98, 0], [99, 0]] : List (List ℕ)).getD
                  (pow2Le ([[97, 0], [98, 0], [99, 0]] : List (List ℕ)).length + r) []))
      ∧ (Finset.range (pow2Le ([[97, 0], [98, 0], [99, 0]] : List (List ℕ)).length)).sum
          (fun r => (parseStrings ((foldToPow2 [[97, 0], [98, 0], [99, 0]]).getD r [])
            : Multiset (List ℕ)))
        = (Finset.range ([[97, 0], [98, 0], [99, 0]] : List (List ℕ)).length).sum
          (fun r => (parseStrings (([[97, 0], [98, 0], [99, 0]] : List (List ℕ)).getD r [])
            : Multiset (List ℕ)))) := by
  have hwf : ∀ blob ∈ ([[97, 0], [98, 0], [99, 0]] : List (List ℕ)), IsWireFormat blob := by
    intro blob hb
    have hcase : blob = [97, 0] ∨ blob = [98, 0] ∨ blob = [99, 0] := by
      simpa using hb
    rcases hcase with h | h | h <;> subst h
    · exact ⟨[[97]], by decide, rfl⟩
    · exact ⟨[[98]], by decide, rfl⟩
    · exact ⟨[[99]], by decide, rfl⟩
  exact ⟨by decide, hwf,
    foldToPow2_conservation [[97, 0], [98, 0], [99, 0]] (by decide) hwf⟩

end Fold

section DuplicateBreak

/-- Indexed string: content bytes plus 64-bit origin index, the String type
of dss_schimek::UCharLengthIndexStringSet. -/
abbrev IStr : Type := List ℕ × ℕ

/-- Default element standing for an out-of-range access. -/
def dflIStr : IStr := ([], 0)

/-- Length of the longest common prefix of two byte strings. -/
def lcpLen : List ℕ → List ℕ → ℕ
  | a :: as, b :: bs => if a = b then lcpLen as bs + 1 else 0
  | _, _ => 0

/-- Entry i of the LCP array produced by the collaborator
radix_string_sort_with_lcp (tlx radixsort_CI3 on the StringLcpPtr built in
RQuick::_internal::sortLocally; spec.md §6): the longest common prefix of
the adjacent sorted strings i-1 and i. -/
def lcpAt (L : List IStr) (i : ℕ) : ℕ :=
  lcpLen (L.getD (i - 1) dflIStr).1 (L.getD i dflIStr).1

/-- Loop condition `curLength != curLcp || prevLength != curLcp` of
getDuplicateRanges (src/unnamed/part_001 line 1074) at position i, with
prevLength the length of string i-1. -/
def neqAt (L : List IStr) (i : ℕ) : Bool :=
  decide ((L.getD i dflIStr).1.length ≠ lcpAt L i
    ∨ (L.getD (i - 1) dflIStr).1.length ≠ lcpAt L i)

/-- State of the interval-collection loop of getDuplicateRanges
(src/unnamed/part_001 lines 1065-1088) after iterations i = 1 .. m: the
list of closed intervals and the first component of intervals.back().
Closing an interval writes back.second := i and pushes (i, i); moving the
start writes back.first := i; its second component is rewritten before it
is ever read, so only back.first is carried. -/
def dupAux (neq : ℕ → Bool) : ℕ → List (ℕ × ℕ) × ℕ
  | 0 => ([], 0)
  | m + 1 =>
    let st := dupAux neq m
    if neq (m + 1) then
      if st.2 + 1 ≠ m + 1 then (st.1 ++ [(st.2, m + 1)], m + 1)
      else (st.1, m + 1)
    else st

/-- Embedding of getDuplicateRanges (src/unnamed/part_001 lines 1053-1091):
run the loop for i = 1 .. n-1 and finally set intervals.back().second = n. -/
def getDuplicateRanges (L : List IStr) : List (ℕ × ℕ) :=
  if L.length = 0 then []
  else (dupAux (neqAt L) (L.length - 1)).1
    ++ [((dupAux (neqAt L) (L.length - 1)).2, L.length)]

/-- Model of the call std::sort(strings + begin, strings + end,
[](a, b){ return a.index < b.index; }) on one duplicate range: some
permutation of the range that is sorted by ascending origin index;
mergeSort with the non-strict index comparison is such a permutation. -/
def sortByIdx (run : List IStr) : List IStr :=
  run.mergeSort (fun a b => decide (a.2 ≤ b.2))

/-- One iteration of sortRanges: replace the subrange [s, e) of the string
array by its index-sorted permutation. -/
def applyRange (acc : List IStr) (s e : ℕ) : List IStr :=
  acc.take s ++ sortByIdx ((acc.drop s).take (e - s)) ++ acc.drop e

/-- Embedding of sortRanges (src/unnamed/part_001 lines 1040-1051): sort
each range [begin, end) of the container by ascending origin index. -/
def sortRanges (L : List IStr) (ranges : List (ℕ × ℕ)) : List IStr :=
  ranges.foldl (fun acc p => applyRange acc p.1 p.2) L

theorem lcpLen_eq_iff :
    ∀ a b : List ℕ, (b.length = lcpLen a b ∧ a.length = lcpLen a b) ↔ a = b := by
  intro a
  induction a with
  | nil =>
    intro b
    cases b with
    | nil => simp [lcpLen]
    | cons x xs => simp [lcpLen]
  | cons x xs ih =>
    intro b
    cases b with
    | nil => simp [lcpLen]
    | cons y ys =>
      by_cases hxy : x = y
      · subst hxy
        have hl : lcpLen (x :: xs) (x :: ys) = lcpLen xs ys + 1 := by
          simp [lcpLen]
        rw [hl]
        simp only [List.length_cons]
        constructor
        · intro h
          have h2 : xs = ys := (ih ys).mp ⟨by omega, by omega⟩
          rw [h2]
        · intro h
          have h2 : xs = ys := (List.cons.inj h).2
          have := (ih ys).mpr h2
          omega
      · have hl : lcpLen (x :: xs) (y :: ys) = 0 := by
          simp [lcpLen, hxy]
        rw [hl]
        simp only [List.length_cons]
        constructor
        · intro h
          exact absurd h.1 (by omega)
        · intro h
          exact absurd (List.cons.inj h).1 hxy

theorem neqAt_iff_ne (L : List IStr) (i : ℕ) :
    neqAt L i = false
      ↔ (L.getD (i - 1) dflIStr).1 = (L.getD i dflIStr).1 := by
  unfold neqAt lcpAt
  rw [decide_eq_false_iff_not]
  push_neg
  exact lcpLen_eq_iff _ _

theorem dupAux_inv (neq : ℕ → Bool) :
    ∀ m : ℕ,
    (dupAux neq m).2 ≤ m
    ∧ (∀ j, (dupAux neq m).2 < j → j ≤ m → neq j = false)
    ∧ List.Chain' (fun p q : ℕ × ℕ => p.2 ≤ q.1) (dupAux neq m).1
    ∧ (∀ p ∈ (dupAux neq m).1, p.1 < p.2 ∧ p.2 ≤ (dupAux neq m).2)
    ∧ (∀ p ∈ (dupAux neq m).1, ∀ j, p.1 < j → j < p.2 → neq j = false)
    ∧ (∀ j, 1 ≤ j → j ≤ m → neq j = false →
        (∃ p ∈ (dupAux neq m).1, p.1 ≤ j - 1 ∧ j < p.2)
        ∨ (dupAux neq m).2 ≤ j - 1) := by
  intro m
  induction m with
  | zero =>
    refine ⟨le_refl _, ?_, ?_, ?_, ?_, ?_⟩
    · intro j h1 h2
      omega
    · simp [dupAux]
    · simp [dupAux]
    · simp [dupAux]
    · intro j h1 h2 _
      omega
  | succ m ih =>
    obtain ⟨i1, i2, i3, i4, i5, i6⟩ := ih
    by_cases hb : neq (m + 1) = true
    · by_cases hc : (dupAux neq m).2 + 1 = m + 1
      · -- back.first + 1 == i: singleton current run, move its start to i
        have hstate : dupAux neq (m + 1) = ((dupAux neq m).1, m + 1) := by
          rw [dupAux]
          simp [hb, hc]
        rw [hstate]
        refine ⟨le_refl _, ?_, i3, ?_, i5, ?_⟩
        · intro j h1 h2
          omega
        · intro p hp
          have := i4 p hp
          omega
        · intro j h1 h2 h3
          rcases Nat.lt_or_ge j (m + 1) with hj | hj
          · rcases i6 j h1 (by omega) h3 with hcase | hcase
            · exact Or.inl hcase
            · exact absurd hcase (by omega)
          · have : j = m + 1 := by omega
            subst this
            exact absurd h3 (by simp [hb])
      · -- close the current run as (back.first, i) and open (i, i)
        have hstate : dupAux neq (m + 1)
            = ((dupAux neq m).1 ++ [((dupAux neq m).2, m + 1)], m + 1) := by
          rw [dupAux]
          simp [hb, hc]
        rw [hstate]
        refine ⟨le_refl _, ?_, ?_, ?_, ?_, ?_⟩
        · intro j h1 h2
          omega
        · rw [List.chain'_append]
          refine ⟨i3, List.chain'_singleton _, ?_⟩
          intro x hx y hy
          have hxmem : x ∈ (dupAux neq m).1 := List.mem_of_getLast?_eq_some hx
          have hy' : y = ((dupAux neq m).2, m + 1) := by
            simp at hy
            exact hy.symm
          subst hy'
          exact le_trans (i4 x hxmem).2 (le_refl _)
        · intro p hp
          rcases List.mem_append.mp hp with hp | hp
          · have := i4 p hp
            omega
          · have hp' : p = ((dupAux neq m).2, m + 1) := by
              simpa using hp
            subst hp'
            constructor
            · simp
              omega
            · simp
        · intro p hp j hj1 hj2
          rcases List.mem_append.mp hp with hp | hp
          · exact i5 p hp j hj1 hj2
          · have hp' : p = ((dupAux neq m).2, m + 1) := by
              simpa using hp
            subst hp'
            simp at hj1 hj2
            exact i2 j hj1 (by omega)
        · intro j h1 h2 h3
          rcases Nat.lt_or_ge j (m + 1) with hj | hj
          · rcases i6 j h1 (by omega) h3 with ⟨p, hp, hps⟩ | hcase
            · exact Or.inl ⟨p, List.mem_append.mpr (Or.inl hp), hps⟩
            · refine Or.inl ⟨((dupAux neq m).2, m + 1), ?_, ?_, ?_⟩
              · exact List.mem_append.mpr (Or.inr (by simp))
              · exact hcase
              · simp
                omega
          · have : j = m + 1 := by omega
            subst this
            exact absurd h3 (by simp [hb])
    · -- strings i-1 and i are equal: the current run is extended
      have hb' : neq (m + 1) = false := by
        revert hb
        cases neq (m + 1) <;> simp
      have hstate : dupAux neq (m + 1) = dupAux neq m := by
        rw [dupAux]
        simp [hb']
      rw [hstate]
      refine ⟨by omega, ?_, i3, i4, i5, ?_⟩
      · intro j h1 h2
        rcases Nat.lt_or_ge j (m + 1) with hj | hj
        · exact i2 j h1 (by omega)
        · have : j = m + 1 := by omega
          subst this
          exact hb'
      · intro j h1 h2 h3
        rcases Nat.lt_or_ge j (m + 1) with hj | hj
        · exact i6 j h1 (by omega) h3
        · have : j = m + 1 := by omega
          subst this
          exact Or.inr (by omega)

/-- Properties of the interval list produced by getDuplicateRanges: the
intervals are ordered and disjoint, in bounds and nonempty, contain only
positions whose string equals its predecessor, and every adjacent equal
pair of strings is covered by one interval. -/
theorem getDuplicateRanges_props (L : List IStr) (hn : 1 ≤ L.length) :
    List.Chain' (fun p q : ℕ × ℕ => p.2 ≤ q.1) (getDuplicateRanges L)
    ∧ (∀ p ∈ getDuplicateRanges L, p.1 < p.2 ∧ p.2 ≤ L.length)
    ∧ (∀ p ∈ getDuplicateRanges L, ∀ j, p.1 < j → j < p.2 → neqAt L j = false)
    ∧ (∀ j, 1 ≤ j → j < L.length → neqAt L j = false →
        ∃ p ∈ getDuplicateRanges L, p.1 ≤ j - 1 ∧ j < p.2) := by
  obtain ⟨i1, i2, i3, i4, i5, i6⟩ := dupAux_inv (neqAt L) (L.length - 1)
  have hne : ¬ L.length = 0 := by omega
  have hrw : getDuplicateRanges L
      = (dupAux (neqAt L) (L.length - 1)).1
        ++ [((dupAux (neqAt L) (L.length - 1)).2, L.length)] := by
    unfold getDuplicateRanges
    simp [hne]
  rw [hrw]
  refine ⟨?_, ?_, ?_, ?_⟩
  · rw [List.chain'_append]
    refine ⟨i3, List.chain'_singleton _, ?_⟩
    intro x hx y hy
    have hxmem := List.mem_of_getLast?_eq_some hx
    have hy' : y = ((dupAux (neqAt L) (L.length - 1)).2, L.length) := by
      simp at hy
      exact hy.symm
    subst hy'
    exact le_trans (i4 x hxmem).2 (by omega)
  · intro p hp
    rcases List.mem_append.mp hp with hp | hp
    · have := i4 p hp
      omega
    · have hp' : p = ((dupAux (neqAt L) (L.length - 1)).2, L.length) := by
        simpa using hp
      subst hp'
      constructor
      · simp
        omega
      · simp
  · intro p hp j hj1 hj2
    rcases List.mem_append.mp hp with hp | hp
    · exact i5 p hp j hj1 hj2
    · have hp' : p = ((dupAux (neqAt L) (L.length - 1)).2, L.length) := by
        simpa using hp
      subst hp'
      simp at hj1 hj2
      exact i2 j hj1 (by omega)
  · intro j h1 h2 h3
    rcases i6 j h1 (by omega) h3 with ⟨p, hp, hps⟩ | hcase
    · exact ⟨p, List.mem_append.mpr (Or.inl hp), hps⟩
    · refine ⟨((dupAux (neqAt L) (L.length - 1)).2, L.length), ?_, hcase, ?_⟩
      · exact List.mem_append.mpr (Or.inr (by simp))
      · simp
        omega

section ListSurgery

variable {γ : Type _}

theorem getD_append_left : ∀ (l1 l2 : List γ) (n : ℕ) (d : γ), n < l1.length →
    (l1 ++ l2).getD n d = l1.getD n d := by
  intro l1
  induction l1 with
  | nil =>
    intro l2 n d h
    simp at h
  | cons a l1 ih =>
    intro l2 n d h
    cases n with
    | zero => rfl
    | succ n =>
      simp only [List.cons_append, List.getD_cons_succ]
      exact ih l2 n d (by simpa using h)

theorem getD_append_right : ∀ (l1 l2 : List γ) (n : ℕ) (d : γ), l1.length ≤ n →
    (l1 ++ l2).getD n d = l2.getD (n - l1.length) d := by
  intro l1
  induction l1 with
  | nil =>
    intro l2 n d _
    simp
  | cons a l1 ih =>
    intro l2 n d h
    cases n with
    | zero => simp at h
    | succ n =>
      simp only [List.cons_append, List.getD_cons_succ, List.length_cons]
      rw [ih l2 n d (by simpa using h)]
      congr 1
      omega

theorem getD_drop : ∀ (l : List γ) (k i : ℕ) (d : γ),
    (l.drop k).getD i d = l.getD (k + i) d := by
  intro l
  induction l with
  | nil =>
    intro k i d
    simp
  | cons a l ih =>
    intro k i d
    cases k with
    | zero => simp
    | succ k =>
      simp only [List.drop_succ_cons]
      rw [ih k i d]
      have : k + 1 + i = (k + i) + 1 := by omega
      rw [this, List.getD_cons_succ]

theorem getD_take : ∀ (l : List γ) (k i : ℕ) (d : γ), i < k →
    (l.take k).getD i d = l.getD i d := by
  intro l
  induction l with
  | nil =>
    intro k i d _
    simp
  | cons a l ih =>
    intro k i d h
    cases k with
    | zero => omega
    | succ k =>
      cases i with
      | zero => simp
      | succ i =>
        simp only [List.take_succ_cons, List.getD_cons_succ]
        exact ih k i d (by omega)

theorem split_three (acc : List γ) (s e : ℕ) (hse : s ≤ e) :
    acc = acc.take s ++ ((acc.drop s).take (e - s) ++ acc.drop e) := by
  conv_lhs => rw [← List.take_append_drop s acc]
  congr 1
  conv_lhs => rw [← List.take_append_drop (e - s) (acc.drop s)]
  congr 1
  rw [List.drop_drop]
  congr 1
  omega

end ListSurgery

section SortRangesFacts

theorem sortByIdx_perm (run : List IStr) : (sortByIdx run).Perm run :=
  List.mergeSort_perm run _

theorem sortByIdx_length (run : List IStr) :
    (sortByIdx run).length = run.length :=
  (sortByIdx_perm run).length_eq

theorem applyRange_length (acc : List IStr) (s e : ℕ) (hse : s ≤ e)
    (he : e ≤ acc.length) : (applyRange acc s e).length = acc.length := by
  unfold applyRange
  simp only [List.length_append, List.length_take, List.length_drop,
    sortByIdx_length]
  omega

theorem applyRange_perm (acc : List IStr) (s e : ℕ) (hse : s ≤ e)
    (he : e ≤ acc.length) : (applyRange acc s e).Perm acc := by
  unfold applyRange
  conv_rhs => rw [split_three acc s e hse]
  rw [List.append_assoc]
  exact List.Perm.append_left _
    (((sortByIdx_perm _)).append_right _)

theorem applyRange_getD_lt (acc : List IStr) (s e pos : ℕ) (hse : s ≤ e)
    (he : e ≤ acc.length) (hpos : pos < s) :
    (applyRange acc s e).getD pos dflIStr = acc.getD pos dflIStr := by
  unfold applyRange
  rw [List.append_assoc]
  rw [getD_append_left _ _ _ _ (by
    simp only [List.length_take]
    omega)]
  exact getD_take acc s pos dflIStr hpos

theorem applyRange_getD_ge (acc : List IStr) (s e pos : ℕ) (hse : s ≤ e)
    (he : e ≤ acc.length) (hpos : e ≤ pos) :
    (applyRange acc s e).getD pos dflIStr = acc.getD pos dflIStr := by
  unfold applyRange
  have hlen : (acc.take s ++ sortByIdx ((acc.drop s).take (e - s))).length = e := by
    simp only [List.length_append, List.length_take, sortByIdx_length,
      List.length_drop]
    omega
  rw [getD_append_right _ _ _ _ (by omega)]
  rw [hlen, getD_drop]
  congr 1
  omega

theorem applyRange_getD_mid (acc : List IStr) (s e off : ℕ) (hse : s ≤ e)
    (he : e ≤ acc.length) (hoff : off < e - s) :
    (applyRange acc s e).getD (s + off) dflIStr
      = (sortByIdx ((acc.drop s).take (e - s))).getD off dflIStr := by
  unfold applyRange
  rw [List.append_assoc]
  rw [getD_append_right _ _ _ _ (by
    simp only [List.length_take]
    omega)]
  have hidx : s + off - (acc.take s).length = off := by
    simp only [List.length_take]
    omega
  rw [hidx]
  rw [getD_append_left _ _ _ _ (by
    rw [sortByIdx_length]
    simp only [List.length_take, List.length_drop]
    omega)]

theorem chain_lower (s e : ℕ) :
    ∀ rest : List (ℕ × ℕ),
    List.Chain' (fun p q : ℕ × ℕ => p.2 ≤ q.1) ((s, e) :: rest) →
    (∀ p ∈ rest, p.1 < p.2) → ∀ p ∈ rest, e ≤ p.1 := by
  intro rest
  induction rest generalizing s e with
  | nil =>
    intro _ _ p hp
    simp at hp
  | cons q rest ih =>
    intro hchain hlt p hp
    have h1 : e ≤ q.1 := (List.chain'_cons.mp hchain).1
    rcases List.mem_cons.mp hp with hp | hp
    · subst hp
      exact h1
    · have hq : q.1 < q.2 := hlt q (by simp)
      have := ih q.1 q.2 (by
        have := (List.chain'_cons.mp hchain).2
        rcases rest with _ | ⟨r, rest'⟩
        · simp at hp
        · exact this) (fun p hp => hlt p (by simp [hp])) p hp
      omega

theorem seg_eq_of_agree (X Y : List IStr) (a b : ℕ)
    (hlen : X.length = Y.length) (hb : b ≤ X.length)
    (hag : ∀ pos, a ≤ pos → pos < b →
      X.getD pos dflIStr = Y.getD pos dflIStr) :
    (X.drop a).take (b - a) = (Y.drop a).take (b - a) := by
  apply List.ext_getElem
  · simp only [List.length_take, List.length_drop]
    omega
  · intro i h1 h2
    have hiX : a + i < X.length := by
      simp only [List.length_take, List.length_drop] at h1
      omega
    have hib : a + i < b := by
      simp only [List.length_take, List.length_drop] at h1
      omega
    have hX : ((X.drop a).take (b - a)).getD i dflIStr = X.getD (a + i) dflIStr := by
      rw [getD_take _ _ _ _ (by
        simp only [List.length_take, List.length_drop] at h1
        omega), getD_drop]
    have hY : ((Y.drop a).take (b - a)).getD i dflIStr = Y.getD (a + i) dflIStr := by
      rw [getD_take _ _ _ _ (by
        simp only [List.length_take, List.length_drop] at h2
        omega), getD_drop]
    have := hX.trans ((hag (a + i) (by omega) hib).trans hY.symm)
    rwa [List.getD_eq_getElem _ _ h1, List.getD_eq_getElem _ _ h2] at this

theorem sortRanges_props :
    ∀ (ranges : List (ℕ × ℕ)) (L : List IStr),
    List.Chain' (fun p q : ℕ × ℕ => p.2 ≤ q.1) ranges →
    (∀ p ∈ ranges, p.1 < p.2 ∧ p.2 ≤ L.length) →
    (sortRanges L ranges).length = L.length
    ∧ (sortRanges L ranges).Perm L
    ∧ (∀ pos, (∀ p ∈ ranges, ¬(p.1 ≤ pos ∧ pos < p.2)) →
        (sortRanges L ranges).getD pos dflIStr = L.getD pos dflIStr)
    ∧ (∀ p ∈ ranges, ∀ off, off < p.2 - p.1 →
        (sortRanges L ranges).getD (p.1 + off) dflIStr
          = (sortByIdx ((L.drop p.1).take (p.2 - p.1))).getD off dflIStr) := by
  intro ranges
  induction ranges with
  | nil =>
    intro L _ _
    refine ⟨rfl, List.Perm.refl _, ?_, ?_⟩
    · intro pos _
      rfl
    · intro p hp
      simp at hp
  | cons hd rest ih =>
    intro L hchain hbnd
    have hhd := hbnd hd (by simp)
    have hse : hd.1 ≤ hd.2 := le_of_lt hhd.1
    have he : hd.2 ≤ L.length := hhd.2
    have hrest_lb : ∀ p ∈ rest, hd.2 ≤ p.1 := by
      have := chain_lower hd.1 hd.2 rest (by
        have : ((hd.1, hd.2) : ℕ × ℕ) = hd := rfl
        rw [this]
        exact hchain) (fun p hp => (hbnd p (by simp [hp])).1)
      exact this
    have hchain2 : List.Chain' (fun p q : ℕ × ℕ => p.2 ≤ q.1) rest :=
      hchain.tail
    have hsr : sortRanges L (hd :: rest)
        = sortRanges (applyRange L hd.1 hd.2) rest := rfl
    have hALlen : (applyRange L hd.1 hd.2).length = L.length :=
      applyRange_length L hd.1 hd.2 hse he
    have hrestbnd : ∀ p ∈ rest, p.1 < p.2 ∧ p.2 ≤ (applyRange L hd.1 hd.2).length := by
      intro p hp
      rw [hALlen]
      exact hbnd p (by simp [hp])
    obtain ⟨k1, k2, k3, k4⟩ := ih (applyRange L hd.1 hd.2) hchain2 hrestbnd
    refine ⟨?_, ?_, ?_, ?_⟩
    · rw [hsr, k1, hALlen]
    · rw [hsr]
      exact k2.trans (applyRange_perm L hd.1 hd.2 hse he)
    · intro pos hpos
      rw [hsr, k3 pos (fun p hp => hpos p (by simp [hp]))]
      have hnot := hpos hd (by simp)
      rcases Nat.lt_or_ge pos hd.1 with hc | hc
      · exact applyRange_getD_lt L hd.1 hd.2 pos hse he hc
      · have : hd.2 ≤ pos := by omega
        exact applyRange_getD_ge L hd.1 hd.2 pos hse he this
    · intro p hp off hoff
      rcases List.mem_cons.mp hp with hp | hp
      · subst hp
        rw [hsr]
        have huntouched : ∀ q ∈ rest, ¬(q.1 ≤ p.1 + off ∧ p.1 + off < q.2) := by
          intro q hq hcon
          have := hrest_lb q hq
          omega
        rw [k3 (p.1 + off) huntouched]
        exact applyRange_getD_mid L p.1 p.2 off hse he hoff
      · rw [hsr]
        rw [k4 p hp off hoff]
        have hseg : ((applyRange L hd.1 hd.2).drop p.1).take (p.2 - p.1)
            = (L.drop p.1).take (p.2 - p.1) := by
          apply seg_eq_of_agree _ _ _ _ hALlen (by
            rw [hALlen]
            exact (hbnd p (by simp [hp])).2)
          intro pos h1 h2
          have : hd.2 ≤ pos := le_trans (hrest_lb p hp) h1
          exact applyRange_getD_ge L hd.1 hd.2 pos hse he this
        rw [hseg]

end SortRangesFacts

section IdxOrder

/-- Strict lexicographic byte order on string contents. -/
def bytesLt (a b : List ℕ) : Prop := List.Lex (· < ·) a b

instance (a b : List ℕ) : Decidable (bytesLt a b) :=
  List.Lex.decidableRel _ a b

/-- Non-strict bytes-then-index order: the ascending order the indexed
comparator induces. -/
def idxLeP (x y : IStr) : Prop :=
  bytesLt x.1 y.1 ∨ (x.1 = y.1 ∧ x.2 ≤ y.2)

instance : IsTrans IStr idxLeP := by
  constructor
  intro x y z hxy hyz
  rcases hxy with h1 | ⟨e1, i1⟩
  · rcases hyz with h2 | ⟨e2, _⟩
    · exact Or.inl (trans_of (List.Lex (· < ·)) h1 h2)
    · exact Or.inl (e2 ▸ h1)
  · rcases hyz with h2 | ⟨e2, i2⟩
    · exact Or.inl (e1 ▸ h2)
    · exact Or.inr ⟨e1.trans e2, le_trans i1 i2⟩

theorem idxLt_iff :
    ∀ (a b : List ℕ) (i j : ℕ), ¬ (0 : ℕ) ∈ a → ¬ (0 : ℕ) ∈ b →
    (idxLt (a, i) (b, j) = true ↔ (bytesLt a b ∨ (a = b ∧ i < j))) := by
  intro a
  induction a with
  | nil =>
    intro b i j _ hb
    cases b with
    | nil =>
      simp only [idxLt, decide_eq_true_eq]
      constructor
      · intro h
        exact Or.inr ⟨by simp, h⟩
      · intro h
        rcases h with h | ⟨_, h⟩
        · exact absurd h (by
            intro hc
            cases hc)
        · exact h
    | cons y ys =>
      have hy : y ≠ 0 := by
        intro hc
        exact hb (by simp [hc])
      simp only [idxLt, decide_eq_true_eq]
      constructor
      · intro _
        exact Or.inl List.Lex.nil
      · intro _
        omega
  | cons x xs ih =>
    intro b i j ha hb
    cases b with
    | nil =>
      simp only [idxLt]
      constructor
      · intro h
        cases h
      · intro h
        rcases h with h | ⟨h, _⟩
        · exact absurd h (List.Lex.not_nil_right _ _)
        · cases h
    | cons y ys =>
      have hx : x ≠ 0 := fun hc => ha (by simp [hc])
      by_cases hxy : x = y
      · subst hxy
        have hxs : ¬ (0 : ℕ) ∈ xs := fun hc => ha (by simp [hc])
        have hys : ¬ (0 : ℕ) ∈ ys := fun hc => hb (by simp [hc])
        have hstep : idxLt (x :: xs, i) (x :: ys, j) = idxLt (xs, i) (ys, j) := by
          simp [idxLt, hx]
        rw [hstep, ih ys i j hxs hys]
        constructor
        · intro h
          rcases h with h | ⟨e, hij⟩
          · exact Or.inl (List.Lex.cons h)
          · exact Or.inr ⟨by rw [e], hij⟩
        · intro h
          rcases h with h | ⟨e, hij⟩
          · rcases (List.Lex.cons_iff).mp h with h'
            exact Or.inl h'
          · exact Or.inr ⟨(List.cons.inj e).2, hij⟩
      · have hstep : idxLt (x :: xs, i) (y :: ys, j) = decide (x < y) := by
          simp [idxLt, hxy]
        rw [hstep]
        simp only [decide_eq_true_eq]
        constructor
        · intro h
          exact Or.inl (List.Lex.rel h)
        · intro h
          rcases h with h | ⟨e, _⟩
          · cases h with
            | cons h => exact absurd rfl hxy
            | rel h => exact h
          · exact absurd (List.cons.inj e).1 hxy

theorem idxLt_false_iff (x y : IStr) (hx : ¬ (0 : ℕ) ∈ x.1)
    (hy : ¬ (0 : ℕ) ∈ y.1) :
    idxLt y x = false ↔ idxLeP x y := by
  rw [← Bool.not_eq_true]
  rw [show idxLt y x = idxLt (y.1, y.2) (x.1, x.2) from rfl]
  rw [idxLt_iff y.1 x.1 y.2 x.2 hy hx]
  unfold idxLeP bytesLt
  constructor
  · intro h
    push_neg at h
    rcases trichotomous_of (r := (List.Lex (· < ·) : List ℕ → List ℕ → Prop)) x.1 y.1 with ht | ht | ht
    · exact Or.inl ht
    · refine Or.inr ⟨ht, ?_⟩
      have := h.2 ht.symm
      omega
    · exact absurd ht h.1
  · intro h hcon
    rcases hcon with hc | ⟨ec, ic⟩
    · rcases h with h | ⟨e, _⟩
      · exact asymm_of (r := (List.Lex (· < ·) : List ℕ → List ℕ → Prop)) h hc
      · rw [e] at hc
        exact irrefl_of (r := (List.Lex (· < ·) : List ℕ → List ℕ → Prop)) _ hc
    · rcases h with h | ⟨e, hij⟩
      · rw [ec] at h
        exact irrefl_of (r := (List.Lex (· < ·) : List ℕ → List ℕ → Prop)) _ h
      · omega

end IdxOrder

section RunFacts

theorem run_bytes_eq (L : List IStr) (s e : ℕ)
    (hadj : ∀ j, s < j → j < e → neqAt L j = false) :
    ∀ i, s ≤ i → i < e → (L.getD i dflIStr).1 = (L.getD s dflIStr).1 := by
  intro i hi hie
  induction i, hi using Nat.le_induction with
  | base => rfl
  | succ i hi ih =>
    have h1 := (neqAt_iff_ne L (i + 1)).mp (hadj (i + 1) (by omega) hie)
    have hidx : i + 1 - 1 = i := by omega
    rw [hidx] at h1
    rw [← h1]
    exact ih (by omega)

theorem getD_mem {γ : Type _} (l : List γ) (pos : ℕ) (d : γ)
    (h : pos < l.length) : l.getD pos d ∈ l := by
  rw [List.getD_eq_getElem _ _ h]
  exact List.getElem_mem h

theorem seg_elem_bytes (L : List IStr) (s e : ℕ) (hse : s < e)
    (he : e ≤ L.length)
    (hadj : ∀ j, s < j → j < e → neqAt L j = false) :
    ∀ x ∈ sortByIdx ((L.drop s).take (e - s)), x.1 = (L.getD s dflIStr).1 := by
  intro x hx
  have hx2 : x ∈ (L.drop s).take (e - s) := (sortByIdx_perm _).mem_iff.mp hx
  obtain ⟨off, hofflen, hoffeq⟩ := List.mem_iff_getElem.mp hx2
  have hoffb : off < e - s := by
    simp only [List.length_take, List.length_drop] at hofflen
    omega
  have hgetD : ((L.drop s).take (e - s)).getD off dflIStr = L.getD (s + off) dflIStr := by
    rw [getD_take _ _ _ _ hoffb, getD_drop]
  rw [List.getD_eq_getElem _ _ hofflen, hoffeq] at hgetD
  rw [hgetD]
  exact run_bytes_eq L s e hadj (s + off) (by omega) (by omega)

end RunFacts

/-- Helper: sortedness by index of one sorted duplicate range. -/
theorem sortByIdx_pairwise (run : List IStr) :
    (sortByIdx run).Pairwise (fun a b : IStr => a.2 ≤ b.2) := by
  have h := @List.sorted_mergeSort IStr (fun a b => decide (a.2 ≤ b.2))
    (by
      intro a b c h1 h2
      simp only [decide_eq_true_eq] at h1 h2 ⊢
      omega)
    (by
      intro a b
      simp only [Bool.or_eq_true, decide_eq_true_eq]
      omega)
    run
  exact h.imp (by
    intro a b hab
    simpa using hab)

/-- C9.  DuplicateBreak: on a locally radix-sorted, LCP-augmented indexed
string buffer (strings zero-free, bytes nondecreasing), the combination of
getDuplicateRanges and sortRanges produces a permutation of the buffer
that is sorted under the indexed comparator (bytes first, origin index as
tiebreaker), and every string that belongs to no equal-bytes run of length
at least two (its neighbours, where they exist, differ from it) stays at
its position. -/
theorem duplicateBreak_correct (L : List IStr)
    (hzf : ∀ x ∈ L, ¬ (0 : ℕ) ∈ x.1)
    (hsorted : List.Pairwise (fun x y : IStr => ¬ bytesLt y.1 x.1) L) :
    (sortRanges L (getDuplicateRanges L)).Perm L
    ∧ List.Pairwise (fun x y : IStr => idxLt y x = false)
        (sortRanges L (getDuplicateRanges L))
    ∧ (∀ pos, pos < L.length →
        (pos = 0 ∨ neqAt L pos = true) →
        (pos + 1 = L.length ∨ neqAt L (pos + 1) = true) →
        (sortRanges L (getDuplicateRanges L)).getD pos dflIStr
          = L.getD pos dflIStr) := by
  by_cases hL0 : L.length = 0
  · have hLnil : L = [] := List.eq_nil_of_length_eq_zero hL0
    subst hLnil
    have hr : getDuplicateRanges ([] : List IStr) = [] := by
      unfold getDuplicateRanges
      simp
    rw [hr]
    refine ⟨List.Perm.refl _, List.Pairwise.nil, ?_⟩
    intro pos hpos
    exact absurd hpos (by omega)
  · have hn : 1 ≤ L.length := by omega
    obtain ⟨r1, r2, r3, r4⟩ := getDuplicateRanges_props L hn
    obtain ⟨k1, k2, k3, k4⟩ := sortRanges_props (getDuplicateRanges L) L r1 r2
    have hbyte : ∀ pos, pos < L.length →
        ((sortRanges L (getDuplicateRanges L)).getD pos dflIStr).1
          = (L.getD pos dflIStr).1 := by
      intro pos hpos
      by_cases hcov : ∃ p ∈ getDuplicateRanges L, p.1 ≤ pos ∧ pos < p.2
      · obtain ⟨p, hp, hp1, hp2⟩ := hcov
        have hb := r2 p hp
        have hk := k4 p hp (pos - p.1) (by omega)
        rw [show p.1 + (pos - p.1) = pos by omega] at hk
        rw [hk]
        have hlen : (sortByIdx ((L.drop p.1).take (p.2 - p.1))).length
            = p.2 - p.1 := by
          rw [sortByIdx_length]
          simp only [List.length_take, List.length_drop]
          omega
        have hmem : (sortByIdx ((L.drop p.1).take (p.2 - p.1))).getD
              (pos - p.1) dflIStr
            ∈ sortByIdx ((L.drop p.1).take (p.2 - p.1)) :=
          getD_mem _ _ _ (by omega)
        have hbp := seg_elem_bytes L p.1 p.2 hb.1 hb.2
          (fun j hj1 hj2 => r3 p hp j hj1 hj2) _ hmem
        rw [hbp]
        exact (run_bytes_eq L p.1 p.2
          (fun j hj1 hj2 => r3 p hp j hj1 hj2) pos hp1 hp2).symm
      · exact congrArg Prod.fst (k3 pos (fun p hp hcon => hcov ⟨p, hp, hcon⟩))
    have hadjacent : ∀ pos, pos + 1 < L.length →
        idxLeP ((sortRanges L (getDuplicateRanges L)).getD pos dflIStr)
          ((sortRanges L (getDuplicateRanges L)).getD (pos + 1) dflIStr) := by
      intro pos hpos
      by_cases heqb : neqAt L (pos + 1) = false
      · obtain ⟨p, hp, hp1, hp2⟩ := r4 (pos + 1) (by omega) (by omega) heqb
        have hp1' : p.1 ≤ pos := by omega
        have hb := r2 p hp
        have hk1 := k4 p hp (pos - p.1) (by omega)
        have hk2 := k4 p hp (pos + 1 - p.1) (by omega)
        rw [show p.1 + (pos - p.1) = pos by omega] at hk1
        rw [show p.1 + (pos + 1 - p.1) = pos + 1 by omega] at hk2
        rw [hk1, hk2]
        have hseglen : (sortByIdx ((L.drop p.1).take (p.2 - p.1))).length
            = p.2 - p.1 := by
          rw [sortByIdx_length]
          simp only [List.length_take, List.length_drop]
          omega
        have hbytes1 := seg_elem_bytes L p.1 p.2 hb.1 hb.2
          (fun j hj1 hj2 => r3 p hp j hj1 hj2) _
          (getD_mem (sortByIdx ((L.drop p.1).take (p.2 - p.1)))
            (pos - p.1) dflIStr (by omega))
        have hbytes2 := seg_elem_bytes L p.1 p.2 hb.1 hb.2
          (fun j hj1 hj2 => r3 p hp j hj1 hj2) _
          (getD_mem (sortByIdx ((L.drop p.1).take (p.2 - p.1)))
            (pos + 1 - p.1) dflIStr (by omega))
        have hpair := sortByIdx_pairwise ((L.drop p.1).take (p.2 - p.1))
        have hadj2 := List.pairwise_iff_getElem.mp hpair (pos - p.1)
          (pos + 1 - p.1) (by omega) (by omega) (by omega)
        refine Or.inr ⟨hbytes1.trans hbytes2.symm, ?_⟩
        rwa [List.getD_eq_getElem _ _ (by omega : pos - p.1
            < (sortByIdx ((L.drop p.1).take (p.2 - p.1))).length),
          List.getD_eq_getElem _ _ (by omega : pos + 1 - p.1
            < (sortByIdx ((L.drop p.1).take (p.2 - p.1))).length)]
      · have heqb' : neqAt L (pos + 1) = true := by
          revert heqb
          cases neqAt L (pos + 1) <;> simp
        have hne : ¬ (L.getD pos dflIStr).1 = (L.getD (pos + 1) dflIStr).1 := by
          intro hc
          have hfalse := (neqAt_iff_ne L (pos + 1)).mpr (by
            rw [show pos + 1 - 1 = pos by omega]
            exact hc)
          rw [hfalse] at heqb'
          exact absurd heqb' (by simp)
        have hnotlt : ¬ bytesLt (L.getD (pos + 1) dflIStr).1
            (L.getD pos dflIStr).1 := by
          have hps := List.pairwise_iff_getElem.mp hsorted pos (pos + 1)
            (by omega) hpos (by omega)
          rwa [← List.getD_eq_getElem L dflIStr (show pos < L.length by omega),
            ← List.getD_eq_getElem L dflIStr hpos] at hps
        have hlt : bytesLt (L.getD pos dflIStr).1 (L.getD (pos + 1) dflIStr).1 := by
          rcases trichotomous_of (r := (List.Lex (· < ·) : List ℕ → List ℕ → Prop))
            (L.getD pos dflIStr).1 (L.getD (pos + 1) dflIStr).1 with h | h | h
          · exact h
          · exact absurd h hne
          · exact absurd h hnotlt
        refine Or.inl ?_
        rw [hbyte pos (by omega), hbyte (pos + 1) hpos]
        exact hlt
    have hchain : List.Chain' idxLeP (sortRanges L (getDuplicateRanges L)) := by
      rw [List.chain'_iff_get]
      intro i hi
      have hi' : i + 1 < L.length := by
        rw [k1] at hi
        omega
      have hstep := hadjacent i hi'
      have hb1 : i < (sortRanges L (getDuplicateRanges L)).length := by
        rw [k1]
        omega
      have hb2 : i + 1 < (sortRanges L (getDuplicateRanges L)).length := by
        rw [k1]
        omega
      rw [List.getD_eq_getElem _ _ hb1, List.getD_eq_getElem _ _ hb2] at hstep
      rw [List.get_eq_getElem, List.get_eq_getElem]
      exact hstep
    have hpairR := List.chain'_iff_pairwise.mp hchain
    refine ⟨k2, ?_, ?_⟩
    · apply List.Pairwise.imp_of_mem ?_ hpairR
      intro a b ha hb hR
      exact (idxLt_false_iff a b (hzf a (k2.subset ha))
        (hzf b (k2.subset hb))).mpr hR
    · intro pos hpos hleft hright
      by_cases hcov : ∃ p ∈ getDuplicateRanges L, p.1 ≤ pos ∧ pos < p.2
      · obtain ⟨p, hp, hp1, hp2⟩ := hcov
        have hb := r2 p hp
        have hps : p.1 = pos := by
          rcases Nat.lt_or_ge p.1 pos with hc | hc
          · have hzero := r3 p hp pos hc hp2
            rcases hleft with h0 | htrue
            · omega
            · rw [hzero] at htrue
              exact absurd htrue (by simp)
          · omega
        have hpe : p.2 = pos + 1 := by
          rcases Nat.lt_or_ge (pos + 1) p.2 with hc | hc
          · have hzero := r3 p hp (pos + 1) (by omega) hc
            rcases hright with h0 | htrue
            · omega
            · rw [hzero] at htrue
              exact absurd htrue (by simp)
          · omega
        have hseg : (L.drop p.1).take (p.2 - p.1) = [L.getD pos dflIStr] := by
          apply List.ext_getElem
          · simp only [List.length_take, List.length_drop, List.length_cons,
              List.length_nil]
            omega
          · intro i h1 h2
            have hi0 : i = 0 := by
              simp only [List.length_cons, List.length_nil] at h2
              omega
            subst hi0
            rw [List.getElem_take, List.getElem_drop]
            have hidx : p.1 + 0 = pos := by omega
            simp only [hidx]
            rw [← List.getD_eq_getElem L dflIStr hpos]
            rfl
        have hk := k4 p hp 0 (by omega)
        rw [show p.1 + 0 = pos by omega] at hk
        rw [hk, hseg]
        show (sortByIdx [L.getD pos dflIStr]).getD 0 dflIStr = L.getD pos dflIStr
        unfold sortByIdx
        rw [List.mergeSort_singleton]
        rfl
      · exact k3 pos (fun p hp hcon => hcov ⟨p, hp, hcon⟩)

/-- C9 witness: the theorem applied to the radix-sorted indexed buffer
[("a",5), ("b",9), ("b",3), ("c",7)], which has one duplicate run of "b"
whose indices are out of order. -/
theorem duplicateBreak_correct_witness :
    (∀ x ∈ ([([97], 5), ([98], 9), ([98], 3), ([99], 7)] : List IStr),
      ¬ (0 : ℕ) ∈ x.1)
    ∧ List.Pairwise (fun x y : IStr => ¬ bytesLt y.1 x.1)
        ([([97], 5), ([98], 9), ([98], 3), ([99], 7)] : List IStr)
    ∧ ((sortRanges ([([97], 5), ([98], 9), ([98], 3), ([99], 7)] : List IStr)
          (getDuplicateRanges [([97], 5), ([98], 9), ([98], 3), ([99], 7)])).Perm
        [([97], 5), ([98], 9), ([98], 3), ([99], 7)]
      ∧ List.Pairwise (fun x y : IStr => idxLt y x = false)
          (sortRanges ([([97], 5), ([98], 9), ([98], 3), ([99], 7)] : List IStr)
            (getDuplicateRanges [([97], 5), ([98], 9), ([98], 3), ([99], 7)]))
      ∧ (∀ pos, pos < ([([97], 5), ([98], 9), ([98], 3), ([99], 7)] : List IStr).length →
          (pos = 0 ∨ neqAt [([97], 5), ([98], 9), ([98], 3), ([99], 7)] pos = true) →
          (pos + 1 = ([([97], 5), ([98], 9), ([98], 3), ([99], 7)] : List IStr).length
            ∨ neqAt [([97], 5), ([98], 9), ([98], 3), ([99], 7)] (pos + 1) = true) →
          (sortRanges ([([97], 5), ([98], 9), ([98], 3), ([99], 7)] : List IStr)
              (getDuplicateRanges [([97], 5), ([98], 9), ([98], 3), ([99], 7)])).getD
              pos dflIStr
            = ([([97], 5), ([98], 9), ([98], 3), ([99], 7)] : List IStr).getD
              pos dflIStr)) :=
  ⟨by decide, by decide,
    duplicateBreak_correct [([97], 5), ([98], 9), ([98], 3), ([99], 7)]
      (by decide) (by decide)⟩

end DuplicateBreak

section Hypercube

variable {α : Type _}

/-- Model of the call std::merge(begin1, end1, begin2, end2, tbegin, comp)
in RQuick::_internal::merge: the output takes the element of the second
sequence exactly when comp(second, first) holds, otherwise the element of
the first sequence. -/
def mergeC (lt : α → α → Bool) : List α → List α → List α
  | [], ys => ys
  | xs, [] => xs
  | x :: xs, y :: ys =>
    if lt y x then y :: mergeC lt (x :: xs) ys else x :: mergeC lt xs (y :: ys)
termination_by xs ys => xs.length + ys.length

theorem mergeC_perm (lt : α → α → Bool) :
    ∀ xs ys : List α, (mergeC lt xs ys).Perm (xs ++ ys) := by
  intro xs
  induction xs with
  | nil =>
    intro ys
    rw [mergeC.eq_def]
    cases ys <;> simp
  | cons x xs ihx =>
    intro ys
    induction ys with
    | nil => simp [mergeC]
    | cons y ys ihy =>
      rw [mergeC]
      by_cases h : lt y x
      · simp only [h, if_true]
        refine List.Perm.trans (List.Perm.cons y ihy) ?_
        have hmid : (y :: (x :: xs ++ ys)).Perm (x :: xs ++ y :: ys) :=
          List.perm_middle.symm
        exact hmid
      · simp only [h, if_false]
        exact List.Perm.cons x (ihx (y :: ys))

theorem mergeC_sorted [LinearOrder α] :
    ∀ xs ys : List α, List.Sorted (· ≤ ·) xs → List.Sorted (· ≤ ·) ys →
    List.Sorted (· ≤ ·) (mergeC cmpLt xs ys) := by
  intro xs
  induction xs with
  | nil =>
    intro ys _ hys
    rw [mergeC.eq_def]
    cases ys with
    | nil => simp
    | cons a t => simpa using hys
  | cons x xs ihx =>
    intro ys hxs hys
    induction ys with
    | nil => simpa [mergeC] using hxs
    | cons y ys ihy =>
      rw [mergeC]
      by_cases h : cmpLt y x
      · rw [if_pos h]
        have hyx : y < x := by
          simpa [cmpLt] using h
        rw [List.sorted_cons]
        constructor
        · intro b hb
          have hb2 : b ∈ x :: xs ++ ys :=
            (mergeC_perm cmpLt (x :: xs) ys).subset hb
          rcases List.mem_append.mp hb2 with hb3 | hb3
          · rcases List.mem_cons.mp hb3 with hb4 | hb4
            · exact le_of_lt (hb4 ▸ hyx)
            · exact le_trans (le_of_lt hyx) ((List.sorted_cons.mp hxs).1 b hb4)
          · exact (List.sorted_cons.mp hys).1 b hb3
        · exact ihy (List.sorted_cons.mp hys).2
      · rw [if_neg h]
        have hxy : x ≤ y := by
          simp only [cmpLt, decide_eq_true_eq] at h
          exact le_of_not_lt h
        rw [List.sorted_cons]
        constructor
        · intro b hb
          have hb2 : b ∈ xs ++ y :: ys :=
            (mergeC_perm cmpLt xs (y :: ys)).subset hb
          rcases List.mem_append.mp hb2 with hb3 | hb3
          · exact (List.sorted_cons.mp hxs).1 b hb3
          · rcases List.mem_cons.mp hb3 with hb4 | hb4
            · exact hb4 ▸ hxy
            · exact le_trans hxy ((List.sorted_cons.mp hys).1 b hb4)
        · exact ihx (y :: ys) (List.sorted_cons.mp hxs).2 hys

theorem upperBoundFrom_le_length (lt : α → α → Bool) (v : List α) (s : α) :
    upperBoundFrom lt v s (lowerBoundIdx lt v s) ≤ v.length := by
  unfold upperBoundFrom
  have h1 := takeWhile_length_le (fun x => !(lt s x))
    (v.drop (lowerBoundIdx lt v s))
  have h2 : (v.drop (lowerBoundIdx lt v s)).length
      = v.length - lowerBoundIdx lt v s := by
    simp
  have h3 : lowerBoundIdx lt v s ≤ v.length := by
    unfold lowerBoundIdx
    exact takeWhile_length_le _ _
  omega

theorem sep_bounds (lt : α → α → Bool) (v : List α) (s : α)
    (bit is_robust : Bool) :
    lowerBoundIdx lt v s ≤ locateSplitter lt v s bit is_robust
    ∧ locateSplitter lt v s bit is_robust
        ≤ upperBoundFrom lt v s (lowerBoundIdx lt v s) := by
  have hLU : lowerBoundIdx lt v s
      ≤ upperBoundFrom lt v s (lowerBoundIdx lt v s) :=
    Nat.le_add_right _ _
  unfold locateSplitter
  cases is_robust with
  | false => exact ⟨le_refl _, hLU⟩
  | true =>
    simp only [Bool.not_true, Bool.false_eq_true, if_false]
    by_cases hc : lowerBoundIdx lt v s
        < v.length / 2 + (if v.length % 2 = 1 ∧ bit = true then 1 else 0)
    · rw [if_pos hc]
      constructor
      · exact le_min (by omega) hLU
      · exact min_le_right _ _
    · rw [if_neg hc]
      exact ⟨le_refl _, hLU⟩

theorem ub_elems_le [LinearOrder α] (v : List α) (s : α) (d : α) :
    ∀ i, i < upperBoundFrom cmpLt v s (lowerBoundIdx cmpLt v s) →
    v.getD i d ≤ s := by
  intro i hi
  rcases Nat.lt_or_ge i (lowerBoundIdx cmpLt v s) with hc | hc
  · have := takeWhile_length_sat (fun x => cmpLt x s) v d hc
    simp only [cmpLt, decide_eq_true_eq] at this
    exact le_of_lt this
  · unfold upperBoundFrom at hi
    have hlt : i - lowerBoundIdx cmpLt v s
        < ((v.drop (lowerBoundIdx cmpLt v s)).takeWhile
            (fun x => !(cmpLt s x))).length := by
      omega
    have := takeWhile_length_sat (fun x => !(cmpLt s x))
      (v.drop (lowerBoundIdx cmpLt v s)) d hlt
    rw [getD_drop] at this
    rw [show lowerBoundIdx cmpLt v s + (i - lowerBoundIdx cmpLt v s) = i
      by omega] at this
    simp only [cmpLt, Bool.not_eq_true', decide_eq_false_iff_not] at this
    exact le_of_not_lt this

theorem lb_elems_ge [LinearOrder α] {v : List α} (s : α) (d : α)
    (hs : List.Sorted (· ≤ ·) v) :
    ∀ i, lowerBoundIdx cmpLt v s ≤ i → i < v.length → s ≤ v.getD i d := by
  intro i hi hilen
  have hLlen : lowerBoundIdx cmpLt v s < v.length := by omega
  have hfail := takeWhile_length_fail (fun x => cmpLt x s) v d hLlen
  simp only [cmpLt, decide_eq_false_iff_not] at hfail
  have h1 : s ≤ v.getD (lowerBoundIdx cmpLt v s) d := le_of_not_lt hfail
  exact le_trans h1 (sorted_getD_le hs hi hilen d)

theorem take_sep_le [LinearOrder α] (v : List α) (s : α) (bit is_robust : Bool) :
    ∀ x ∈ v.take (locateSplitter cmpLt v s bit is_robust), x ≤ s := by
  intro x hx
  obtain ⟨idx, hidxlen, hidxeq⟩ := List.mem_iff_getElem.mp hx
  have hidx2 : idx < locateSplitter cmpLt v s bit is_robust := by
    simp only [List.length_take] at hidxlen
    omega
  have hidxv : idx < v.length := by
    simp only [List.length_take] at hidxlen
    omega
  have hval : v.getD idx x = x := by
    rw [List.getD_eq_getElem v x hidxv]
    rw [List.getElem_take] at hidxeq
    exact hidxeq
  rw [← hval]
  exact ub_elems_le v s x idx
    (lt_of_lt_of_le hidx2 (sep_bounds cmpLt v s bit is_robust).2)

theorem drop_sep_ge [LinearOrder α] {v : List α} (s : α) (bit is_robust : Bool)
    (hs : List.Sorted (· ≤ ·) v) :
    ∀ x ∈ v.drop (locateSplitter cmpLt v s bit is_robust), s ≤ x := by
  intro x hx
  obtain ⟨k, hklen, hkeq⟩ := List.mem_iff_getElem.mp hx
  have hkv : locateSplitter cmpLt v s bit is_robust + k < v.length := by
    simp only [List.length_drop] at hklen
    omega
  have hval : v.getD (locateSplitter cmpLt v s bit is_robust + k) x = x := by
    rw [List.getD_eq_getElem v x hkv]
    rw [List.getElem_drop] at hkeq
    exact hkeq
  rw [← hval]
  exact lb_elems_ge s x hs _
    (le_trans (sep_bounds cmpLt v s bit is_robust).1 (Nat.le_add_right _ _)) hkv

/-- New local buffer of rank i after one level of
RQuick::_internal::sortRec (src/src/sorter/RQuick/RQuick.hpp lines
404-615): sep = locateSplitter(own buffer, pivot); left-group ranks
(i < N/2) keep [0..sep) and merge it with the [0..sep_partner) piece the
partner (i + N/2) sends; right-group ranks keep [sep..end) and merge it
with the partner's (i - N/2, since partner = (i + N/2) mod N) piece
[sep_partner..end).  The raw-byte re-materialisation and container update
copy exactly the bytes of these views.  The pivot p is the group-wide
common value of selectSplitter and bits i the random bit rank i's
RandomBitStore yields; both are modelled from the spec as oracles,
because BinTreeMedianSelection.hpp and RandomBitStore.hpp are not part of
the sources (spec.md §4.C: every rank sees the same pivot; §4.B: getNextBit
yields one bit). -/
def stepBuf (lt : α → α → Bool) (is_robust : Bool) (p : α) (bits : ℕ → Bool)
    (w : List (List α)) (i : ℕ) : List α :=
  let v := w.getD i []
  let sep := locateSplitter lt v p (bits i) is_robust
  if i < w.length / 2 then
    let pv := w.getD (i + w.length / 2) []
    let psep := locateSplitter lt pv p (bits (i + w.length / 2)) is_robust
    mergeC lt (v.take sep) (pv.take psep)
  else
    let pv := w.getD (i - w.length / 2) []
    let psep := locateSplitter lt pv p (bits (i - w.length / 2)) is_robust
    mergeC lt (v.drop sep) (pv.drop psep)

/-- One level of sortRec over the whole group: every rank's buffer after
the partition / pairwise exchange / merge. -/
def stepM (lt : α → α → Bool) (is_robust : Bool) (p : α) (bits : ℕ → Bool)
    (w : List (List α)) : List (List α) :=
  (List.range w.length).map (stepBuf lt is_robust p bits w)

/-- Embedding of the recursion of RQuick::_internal::sortRec: one level,
then, when nprocs >= 4, an MPI_Comm_split at the half (colour
myrank < nprocs/2, key myrank, so the sub-groups are the first and second
halves in rank order) and a recursive call on each half.  pivOr and bitOr
supply the per-group pivot and random bits as functions of the group
state. -/
def sortRecM (lt : α → α → Bool) (is_robust : Bool)
    (pivOr : List (List α) → α) (bitOr : List (List α) → ℕ → Bool)
    (w : List (List α)) : List (List α) :=
  let w2 := stepM lt is_robust (pivOr w) (bitOr w) w
  if 4 ≤ w.length then
    sortRecM lt is_robust pivOr bitOr (w2.take (w.length / 2))
      ++ sortRecM lt is_robust pivOr bitOr (w2.drop (w.length / 2))
  else w2
termination_by w.length
decreasing_by
  · simp only [w2, stepM, List.length_take, List.length_map, List.length_range]
    omega
  · simp only [w2, stepM, List.length_drop, List.length_map, List.length_range]
    omega

/-- Model of the local sort of the driver (tlx radix string sort, plus
DuplicateBreak in indexed mode): a sorted permutation of the local buffer
under the chosen comparator. -/
def sortLocal (lt : α → α → Bool) (v : List α) : List α :=
  v.mergeSort (fun a b => !(lt b a))

/-- String-view level of the fold-in step of RQuick::_internal::sort for
the active ranks: rank r < P - Q appends the blob of exile rank Q + r to
its own, the other active ranks keep theirs (byte-level model and
conservation: foldToPow2). -/
def foldStrings (w : List (List α)) : List (List α) :=
  (List.range (pow2Le w.length)).map (fun r =>
    if r < w.length - pow2Le w.length then
      w.getD r [] ++ w.getD (pow2Le w.length + r) []
    else w.getD r [])

/-- Embedding of the driver RQuick::_internal::sort
(src/src/sorter/RQuick/RQuick.hpp lines 822-1030), as the list of the
per-rank return values: base case nprocs == 1 sorts locally; otherwise
fold to the power of two (exiles return the empty container), locally
sort each active rank (the shuffle block is commented out in the source),
and run sortRec on the power-of-two group. -/
def sortDriver (lt : α → α → Bool) (is_robust : Bool)
    (pivOr : List (List α) → α) (bitOr : List (List α) → ℕ → Bool)
    (w : List (List α)) : List (List α) :=
  if w.length = 1 then [sortLocal lt (w.getD 0 [])]
  else
    sortRecM lt is_robust pivOr bitOr ((foldStrings w).map (sortLocal lt))
      ++ List.replicate (w.length - pow2Le w.length) []

theorem stepM_length (lt : α → α → Bool) (is_robust : Bool) (p : α)
    (bits : ℕ → Bool) (w : List (List α)) :
    (stepM lt is_robust p bits w).length = w.length := by
  simp [stepM]

theorem stepM_getD (lt : α → α → Bool) (is_robust : Bool) (p : α)
    (bits : ℕ → Bool) (w : List (List α)) {i : ℕ} (hi : i < w.length) :
    (stepM lt is_robust p bits w).getD i [] = stepBuf lt is_robust p bits w i := by
  unfold stepM
  exact range_map_getD w.length i _ [] hi

theorem stepBuf_left (lt : α → α → Bool) (is_robust : Bool) (p : α)
    (bits : ℕ → Bool) (w : List (List α)) {i : ℕ} (hi : i < w.length / 2) :
    stepBuf lt is_robust p bits w i
      = mergeC lt
          ((w.getD i []).take
            (locateSplitter lt (w.getD i []) p (bits i) is_robust))
          ((w.getD (i + w.length / 2) []).take
            (locateSplitter lt (w.getD (i + w.length / 2) []) p
              (bits (i + w.length / 2)) is_robust)) := by
  simp [stepBuf, hi]

theorem stepBuf_right (lt : α → α → Bool) (is_robust : Bool) (p : α)
    (bits : ℕ → Bool) (w : List (List α)) {i : ℕ} (hi : ¬ i < w.length / 2) :
    stepBuf lt is_robust p bits w i
      = mergeC lt
          ((w.getD i []).drop
            (locateSplitter lt (w.getD i []) p (bits i) is_robust))
          ((w.getD (i - w.length / 2) []).drop
            (locateSplitter lt (w.getD (i - w.length / 2) []) p
              (bits (i - w.length / 2)) is_robust)) := by
  simp [stepBuf, hi]

theorem coe_flatten_eq_sum {γ : Type _} (ws : List (List γ)) :
    (↑ws.flatten : Multiset γ)
      = (Finset.range ws.length).sum (fun r => (↑(ws.getD r []) : Multiset γ)) := by
  induction ws with
  | nil => simp
  | cons v ws ih =>
    simp only [List.flatten_cons, List.length_cons]
    rw [Finset.sum_range_succ']
    simp only [List.getD_cons_succ, List.getD_cons_zero]
    rw [← ih]
    rw [← Multiset.coe_add]
    rw [add_comm]

theorem mergeC_coe (lt : α → α → Bool) (xs ys : List α) :
    (↑(mergeC lt xs ys) : Multiset α) = ↑xs + ↑ys := by
  rw [Multiset.coe_add]
  exact Multiset.coe_eq_coe.mpr (mergeC_perm lt xs ys)

theorem take_drop_coe (v : List α) (k : ℕ) :
    (↑(v.take k) : Multiset α) + ↑(v.drop k) = ↑v := by
  rw [Multiset.coe_add]
  exact Multiset.coe_eq_coe.mpr
    (List.Perm.of_eq (List.take_append_drop k v))

theorem stepM_multiset (lt : α → α → Bool) (is_robust : Bool) (p : α)
    (bits : ℕ → Bool) (w : List (List α)) (hN : w.length % 2 = 0) :
    (↑(stepM lt is_robust p bits w).flatten : Multiset α) = ↑w.flatten := by
  rw [coe_flatten_eq_sum, coe_flatten_eq_sum, stepM_length]
  have hgetD : ∀ r ∈ Finset.range w.length,
      (↑((stepM lt is_robust p bits w).getD r []) : Multiset α)
        = ↑(stepBuf lt is_robust p bits w r) := by
    intro r hr
    rw [Finset.mem_range] at hr
    rw [stepM_getD lt is_robust p bits w hr]
  rw [Finset.sum_congr rfl hgetD]
  have hsplit : ∀ f : ℕ → Multiset α,
      (Finset.range w.length).sum f
        = (Finset.range (w.length / 2)).sum f
          + (Finset.range (w.length / 2)).sum (fun r => f (w.length / 2 + r)) := by
    intro f
    have hhalf : w.length - w.length / 2 = w.length / 2 := by omega
    rw [Finset.range_eq_Ico,
      ← Finset.sum_Ico_consecutive f (Nat.zero_le (w.length / 2))
        (by omega : w.length / 2 ≤ w.length),
      ← Finset.range_eq_Ico, Finset.sum_Ico_eq_sum_range, hhalf]
  rw [hsplit, hsplit]
  rw [← Finset.sum_add_distrib, ← Finset.sum_add_distrib]
  apply Finset.sum_congr rfl
  intro r hr
  rw [Finset.mem_range] at hr
  have hrlt : r < w.length / 2 := hr
  have hq : ¬ w.length / 2 + r < w.length / 2 := by omega
  rw [stepBuf_left lt is_robust p bits w hrlt,
    stepBuf_right lt is_robust p bits w hq]
  rw [show w.length / 2 + r - w.length / 2 = r by omega]
  rw [show r + w.length / 2 = w.length / 2 + r by omega]
  rw [mergeC_coe, mergeC_coe]
  have h1 := take_drop_coe
    (w.getD r [])
    (locateSplitter lt (w.getD r []) p (bits r) is_robust)
  have h2 := take_drop_coe
    (w.getD (w.length / 2 + r) [])
    (locateSplitter lt (w.getD (w.length / 2 + r) []) p
      (bits (w.length / 2 + r)) is_robust)
  rw [← h1, ← h2]
  abel

theorem getD_mem_of_lt (w : List (List α)) {i : ℕ} (hi : i < w.length) :
    w.getD i [] ∈ w := by
  rw [List.getD_eq_getElem _ _ hi]
  exact List.getElem_mem hi

theorem stepBuf_sorted [LinearOrder α] (is_robust : Bool) (p : α)
    (bits : ℕ → Bool) (w : List (List α))
    (hs : ∀ v ∈ w, List.Sorted (· ≤ ·) v) (i : ℕ) :
    List.Sorted (· ≤ ·) (stepBuf cmpLt is_robust p bits w i) := by
  have hget : ∀ k, List.Sorted (· ≤ ·) (w.getD k []) := by
    intro k
    rcases Nat.lt_or_ge k w.length with hk | hk
    · exact hs _ (getD_mem_of_lt w hk)
    · rw [List.getD_eq_default _ _ (by omega)]
      exact List.sorted_nil
  by_cases hi : i < w.length / 2
  · rw [stepBuf_left cmpLt is_robust p bits w hi]
    exact mergeC_sorted _ _
      ((hget i).sublist (List.take_sublist _ _))
      ((hget (i + w.length / 2)).sublist (List.take_sublist _ _))
  · rw [stepBuf_right cmpLt is_robust p bits w hi]
    exact mergeC_sorted _ _
      ((hget i).sublist (List.drop_sublist _ _))
      ((hget (i - w.length / 2)).sublist (List.drop_sublist _ _))

theorem stepBuf_le_pivot [LinearOrder α] (is_robust : Bool) (p : α)
    (bits : ℕ → Bool) (w : List (List α)) {i : ℕ} (hi : i < w.length / 2) :
    ∀ a ∈ stepBuf cmpLt is_robust p bits w i, a ≤ p := by
  intro a ha
  rw [stepBuf_left cmpLt is_robust p bits w hi] at ha
  have := (mergeC_perm cmpLt _ _).subset ha
  rcases List.mem_append.mp this with hmem | hmem
  · exact take_sep_le _ p _ is_robust a hmem
  · exact take_sep_le _ p _ is_robust a hmem

theorem stepBuf_ge_pivot [LinearOrder α] (is_robust : Bool) (p : α)
    (bits : ℕ → Bool) (w : List (List α))
    (hs : ∀ v ∈ w, List.Sorted (· ≤ ·) v) {j : ℕ}
    (hj1 : ¬ j < w.length / 2) (hj2 : j < w.length) :
    ∀ b ∈ stepBuf cmpLt is_robust p bits w j, p ≤ b := by
  intro b hb
  have hget : ∀ k, List.Sorted (· ≤ ·) (w.getD k []) := by
    intro k
    rcases Nat.lt_or_ge k w.length with hk | hk
    · exact hs _ (getD_mem_of_lt w hk)
    · rw [List.getD_eq_default _ _ (by omega)]
      exact List.sorted_nil
  rw [stepBuf_right cmpLt is_robust p bits w hj1] at hb
  have := (mergeC_perm cmpLt _ _).subset hb
  rcases List.mem_append.mp this with hmem | hmem
  · exact drop_sep_ge p _ is_robust (hget j) b hmem
  · exact drop_sep_ge p _ is_robust (hget (j - w.length / 2)) b hmem

theorem sortRecM_base (lt : α → α → Bool) (is_robust : Bool)
    (pivOr : List (List α) → α) (bitOr : List (List α) → ℕ → Bool)
    (w : List (List α)) (h : ¬ 4 ≤ w.length) :
    sortRecM lt is_robust pivOr bitOr w
      = stepM lt is_robust (pivOr w) (bitOr w) w := by
  rw [sortRecM]
  simp [h]

theorem sortRecM_rec (lt : α → α → Bool) (is_robust : Bool)
    (pivOr : List (List α) → α) (bitOr : List (List α) → ℕ → Bool)
    (w : List (List α)) (h : 4 ≤ w.length) :
    sortRecM lt is_robust pivOr bitOr w
      = sortRecM lt is_robust pivOr bitOr
          ((stepM lt is_robust (pivOr w) (bitOr w) w).take (w.length / 2))
        ++ sortRecM lt is_robust pivOr bitOr
          ((stepM lt is_robust (pivOr w) (bitOr w) w).drop (w.length / 2)) := by
  rw [sortRecM]
  simp [h]

theorem sortRecM_multiset (lt : α → α → Bool) (is_robust : Bool)
    (pivOr : List (List α) → α) (bitOr : List (List α) → ℕ → Bool) :
    ∀ d : ℕ, 1 ≤ d → ∀ w : List (List α), w.length = 2 ^ d →
    (↑(sortRecM lt is_robust pivOr bitOr w).flatten : Multiset α)
      = ↑w.flatten := by
  intro d
  induction d with
  | zero => omega
  | succ d ihd =>
    intro _ w hw
    by_cases hd0 : d = 0
    · subst hd0
      have h2 : w.length = 2 := by
        rw [hw]
        norm_num
      rw [sortRecM_base lt is_robust pivOr bitOr w (by omega)]
      exact stepM_multiset lt is_robust (pivOr w) (bitOr w) w (by omega)
    · have hd1 : 1 ≤ d := by omega
      have h2d : w.length = 2 * 2 ^ d := by
        rw [hw]
        ring
    -- the group splits into two power-of-two halves
      have h4 : 4 ≤ w.length := by
        have h1 : 2 ≤ 2 ^ d := by
          calc 2 = 2 ^ 1 := by norm_num
          _ ≤ 2 ^ d := Nat.pow_le_pow_right (by norm_num) hd1
        omega
      rw [sortRecM_rec lt is_robust pivOr bitOr w h4]
      have hw2len : (stepM lt is_robust (pivOr w) (bitOr w) w).length
          = w.length := stepM_length _ _ _ _ _
      have htlen : ((stepM lt is_robust (pivOr w) (bitOr w) w).take
          (w.length / 2)).length = 2 ^ d := by
        simp only [List.length_take, hw2len]
        omega
      have hdlen : ((stepM lt is_robust (pivOr w) (bitOr w) w).drop
          (w.length / 2)).length = 2 ^ d := by
        simp only [List.length_drop, hw2len]
        omega
      have ihA := ihd hd1 _ htlen
      have ihB := ihd hd1 _ hdlen
      rw [List.flatten_append]
      rw [show (↑(((sortRecM lt is_robust pivOr bitOr
            ((stepM lt is_robust (pivOr w) (bitOr w) w).take (w.length / 2))).flatten)
          ++ ((sortRecM lt is_robust pivOr bitOr
            ((stepM lt is_robust (pivOr w) (bitOr w) w).drop (w.length / 2))).flatten))
          : Multiset α)
        = ↑((sortRecM lt is_robust pivOr bitOr
            ((stepM lt is_robust (pivOr w) (bitOr w) w).take (w.length / 2))).flatten)
          + ↑((sortRecM lt is_robust pivOr bitOr
            ((stepM lt is_robust (pivOr w) (bitOr w) w).drop (w.length / 2))).flatten)
        from (Multiset.coe_add _ _).symm]
      rw [ihA, ihB]
      have hjoin : (↑(((stepM lt is_robust (pivOr w) (bitOr w) w).take
            (w.length / 2)).flatten) : Multiset α)
          + ↑(((stepM lt is_robust (pivOr w) (bitOr w) w).drop
            (w.length / 2)).flatten)
          = ↑((stepM lt is_robust (pivOr w) (bitOr w) w).flatten) := by
        rw [Multiset.coe_add, ← List.flatten_append, List.take_append_drop]
      rw [hjoin]
      exact stepM_multiset lt is_robust (pivOr w) (bitOr w) w (by omega)

theorem mem_stepM (lt : α → α → Bool) (is_robust : Bool) (p : α)
    (bits : ℕ → Bool) (w : List (List α)) {v : List α}
    (hv : v ∈ stepM lt is_robust p bits w) :
    ∃ i, i < w.length ∧ v = stepBuf lt is_robust p bits w i := by
  unfold stepM at hv
  obtain ⟨i, hi, heq⟩ := List.mem_map.mp hv
  exact ⟨i, List.mem_range.mp hi, heq.symm⟩

theorem mem_flatten_take {γ : Type _} (ws : List (List γ)) (k : ℕ) (a : γ)
    (ha : a ∈ (ws.take k).flatten) :
    ∃ i, i < k ∧ i < ws.length ∧ a ∈ ws.getD i [] := by
  obtain ⟨v, hv, hav⟩ := List.mem_flatten.mp ha
  obtain ⟨m, hmlen, hmeq⟩ := List.mem_iff_getElem.mp hv
  have hm : m < k ∧ m < ws.length := by
    simp only [List.length_take] at hmlen
    omega
  refine ⟨m, hm.1, hm.2, ?_⟩
  rw [List.getElem_take] at hmeq
  rw [List.getD_eq_getElem _ _ hm.2, hmeq]
  exact hav

theorem mem_flatten_drop {γ : Type _} (ws : List (List γ)) (k : ℕ) (a : γ)
    (ha : a ∈ (ws.drop k).flatten) :
    ∃ i, k ≤ i ∧ i < ws.length ∧ a ∈ ws.getD i [] := by
  obtain ⟨v, hv, hav⟩ := List.mem_flatten.mp ha
  obtain ⟨m, hmlen, hmeq⟩ := List.mem_iff_getElem.mp hv
  have hm : k + m < ws.length := by
    simp only [List.length_drop] at hmlen
    omega
  refine ⟨k + m, by omega, hm, ?_⟩
  rw [List.getElem_drop] at hmeq
  rw [List.getD_eq_getElem _ _ hm, hmeq]
  exact hav

theorem mem_of_coe_eq {γ : Type _} {l1 l2 : List γ}
    (h : (↑l1 : Multiset γ) = ↑l2) {a : γ} (ha : a ∈ l1) : a ∈ l2 :=
  (Multiset.coe_eq_coe.mp h).subset ha

theorem sortRecM_main [LinearOrder α] (is_robust : Bool)
    (pivOr : List (List α) → α) (bitOr : List (List α) → ℕ → Bool) :
    ∀ d : ℕ, 1 ≤ d → ∀ w : List (List α), w.length = 2 ^ d →
    (∀ v ∈ w, List.Sorted (· ≤ ·) v) →
    (sortRecM cmpLt is_robust pivOr bitOr w).length = 2 ^ d
    ∧ (∀ v ∈ sortRecM cmpLt is_robust pivOr bitOr w, List.Sorted (· ≤ ·) v)
    ∧ (∀ i j, i < j → j < 2 ^ d →
        ∀ a ∈ (sortRecM cmpLt is_robust pivOr bitOr w).getD i [],
        ∀ b ∈ (sortRecM cmpLt is_robust pivOr bitOr w).getD j [], a ≤ b) := by
  intro d
  induction d with
  | zero => omega
  | succ d ihd =>
    intro _ w hw hs
    by_cases hd0 : d = 0
    · -- base group of two ranks: one level and no recursion
      subst hd0
      have h2 : w.length = 2 := by
        rw [hw]
        norm_num
      rw [sortRecM_base cmpLt is_robust pivOr bitOr w (by omega)]
      refine ⟨by rw [stepM_length, h2]; norm_num, ?_, ?_⟩
      · intro v hv
        obtain ⟨i, _, heq⟩ := mem_stepM cmpLt is_robust _ _ w hv
        rw [heq]
        exact stepBuf_sorted is_robust _ _ w hs i
      · intro i j hij hj a ha b hb
        have hi0 : i = 0 := by
          norm_num at hj
          omega
        have hj1 : j = 1 := by
          norm_num at hj
          omega
        subst hi0
        subst hj1
        rw [stepM_getD cmpLt is_robust _ _ w (by omega)] at ha
        rw [stepM_getD cmpLt is_robust _ _ w (by omega)] at hb
        have hap : a ≤ pivOr w :=
          stepBuf_le_pivot is_robust _ _ w (by omega) a ha
        have hbp : pivOr w ≤ b :=
          stepBuf_ge_pivot is_robust _ _ w hs (by omega) (by omega) b hb
        exact le_trans hap hbp
    · have hd1 : 1 ≤ d := by omega
      have h2d : w.length = 2 * 2 ^ d := by
        rw [hw]
        ring
      have hpow : 2 ≤ 2 ^ d := by
        calc 2 = 2 ^ 1 := by norm_num
        _ ≤ 2 ^ d := Nat.pow_le_pow_right (by norm_num) hd1
      have h4 : 4 ≤ w.length := by omega
      have hhalf : w.length / 2 = 2 ^ d := by omega
      rw [sortRecM_rec cmpLt is_robust pivOr bitOr w h4]
      have hw2len : (stepM cmpLt is_robust (pivOr w) (bitOr w) w).length
          = w.length := stepM_length _ _ _ _ _
      have htlen : ((stepM cmpLt is_robust (pivOr w) (bitOr w) w).take
          (w.length / 2)).length = 2 ^ d := by
        simp only [List.length_take, hw2len]
        omega
      have hdlen : ((stepM cmpLt is_robust (pivOr w) (bitOr w) w).drop
          (w.length / 2)).length = 2 ^ d := by
        simp only [List.length_drop, hw2len]
        omega
      have hsortedW2 : ∀ v ∈ stepM cmpLt is_robust (pivOr w) (bitOr w) w,
          List.Sorted (· ≤ ·) v := by
        intro v hv
        obtain ⟨i, _, heq⟩ := mem_stepM cmpLt is_robust _ _ w hv
        rw [heq]
        exact stepBuf_sorted is_robust _ _ w hs i
      have hsortedT : ∀ v ∈ (stepM cmpLt is_robust (pivOr w) (bitOr w) w).take
          (w.length / 2), List.Sorted (· ≤ ·) v :=
        fun v hv => hsortedW2 v ((List.take_sublist _ _).mem hv)
      have hsortedD : ∀ v ∈ (stepM cmpLt is_robust (pivOr w) (bitOr w) w).drop
          (w.length / 2), List.Sorted (· ≤ ·) v :=
        fun v hv => hsortedW2 v ((List.drop_sublist _ _).mem hv)
      obtain ⟨lA, sA, cA⟩ := ihd hd1 _ htlen hsortedT
      obtain ⟨lB, sB, cB⟩ := ihd hd1 _ hdlen hsortedD
      have hmA := sortRecM_multiset cmpLt is_robust pivOr bitOr d hd1 _ htlen
      have hmB := sortRecM_multiset cmpLt is_robust pivOr bitOr d hd1 _ hdlen
      refine ⟨?_, ?_, ?_⟩
      · rw [List.length_append, lA, lB]
        ring
      · intro v hv
        rcases List.mem_append.mp hv with hv | hv
        · exact sA v hv
        · exact sB v hv
      · intro i j hij hj a ha b hb
        by_cases hjs : j < 2 ^ d
        · -- both ranks in the left half
          rw [getD_append_left _ _ _ _ (by omega)] at ha hb
          exact cA i j hij hjs a ha b hb
        · by_cases his : i < 2 ^ d
          · -- rank i in the left half, rank j in the right half
            rw [getD_append_left _ _ _ _ (by omega)] at ha
            rw [getD_append_right _ _ _ _ (by omega)] at hb
            -- a lies in some left-half buffer of the level result
            have haflat : a ∈ (sortRecM cmpLt is_robust pivOr bitOr
                ((stepM cmpLt is_robust (pivOr w) (bitOr w) w).take
                  (w.length / 2))).flatten := by
              refine List.mem_flatten.mpr ⟨_, ?_, ha⟩
              exact getD_mem_of_lt _ (by omega)
            have haflat2 := mem_of_coe_eq hmA haflat
            obtain ⟨ia, hia1, hia2, hia3⟩ := mem_flatten_take _ _ a haflat2
            rw [stepM_getD cmpLt is_robust _ _ w (by omega)] at hia3
            have hap : a ≤ pivOr w :=
              stepBuf_le_pivot is_robust _ _ w (by omega) a hia3
            -- b lies in some right-half buffer of the level result
            have hbflat : b ∈ (sortRecM cmpLt is_robust pivOr bitOr
                ((stepM cmpLt is_robust (pivOr w) (bitOr w) w).drop
                  (w.length / 2))).flatten := by
              refine List.mem_flatten.mpr ⟨_, ?_, hb⟩
              exact getD_mem_of_lt _ (by rw [lB]; omega)
            have hbflat2 := mem_of_coe_eq hmB hbflat
            obtain ⟨ib, hib1, hib2, hib3⟩ := mem_flatten_drop _ _ b hbflat2
            rw [stepM_getD cmpLt is_robust _ _ w (by omega)] at hib3
            have hbp : pivOr w ≤ b :=
              stepBuf_ge_pivot is_robust _ _ w hs (by omega) (by omega) b hib3
            exact le_trans hap hbp
          · -- both ranks in the right half
            rw [getD_append_right _ _ _ _ (by omega)] at ha hb
            rw [lA] at ha hb
            exact cB (i - 2 ^ d) (j - 2 ^ d) (by omega) (by omega) a ha b hb

theorem sortLocal_sorted [LinearOrder α] (v : List α) :
    List.Sorted (· ≤ ·) (sortLocal cmpLt v) := by
  have h := @List.sorted_mergeSort α (fun a b => !(cmpLt b a))
    (by
      intro a b c h1 h2
      simp only [cmpLt, Bool.not_eq_true', decide_eq_false_iff_not, not_lt]
        at h1 h2 ⊢
      exact le_trans h1 h2)
    (by
      intro a b
      simp only [cmpLt, Bool.or_eq_true, Bool.not_eq_true',
        decide_eq_false_iff_not, not_lt]
      exact le_total a b)
    v
  exact h.imp (by
    intro a b hab
    simp only [cmpLt, Bool.not_eq_true', decide_eq_false_iff_not, not_lt] at hab
    exact hab)

theorem foldStrings_length (w : List (List α)) :
    (foldStrings w).length = pow2Le w.length := by
  simp [foldStrings]

theorem log2_pos {P : ℕ} (h : 2 ≤ P) : 1 ≤ Nat.log2 P := by
  by_contra hc
  push_neg at hc
  have h0 : Nat.log2 P = 0 := by omega
  have hh := pow2Le_gt_half (show 1 ≤ P by omega)
  unfold pow2Le at hh
  rw [h0] at hh
  norm_num at hh
  omega

theorem getD_replicate_nil {γ : Type _} (n m : ℕ) :
    (List.replicate n ([] : List γ)).getD m [] = [] := by
  rcases Nat.lt_or_ge m n with h | h
  · rw [List.getD_eq_getElem _ _ (by simpa using h)]
    simp
  · exact List.getD_eq_default _ _ (by simpa using h)

/-- C1.  Global order postcondition of the driver sort: for every run on
P ≥ 1 processes, modelling each rank's local input as a list of strings,
after RQuick sort returns every rank's local result is internally sorted,
and for any ranks i < j every string held by rank i is ≤ every string
held by rank j under the chosen comparator (exile ranks hold the empty
buffer, for which the condition is vacuous). -/
theorem sort_global_order [LinearOrder α] (is_robust : Bool)
    (pivOr : List (List α) → α) (bitOr : List (List α) → ℕ → Bool)
    (w : List (List α)) (hP : 1 ≤ w.length) :
    (sortDriver cmpLt is_robust pivOr bitOr w).length = w.length
    ∧ (∀ v ∈ sortDriver cmpLt is_robust pivOr bitOr w, List.Sorted (· ≤ ·) v)
    ∧ (∀ i j, i < j → j < (sortDriver cmpLt is_robust pivOr bitOr w).length →
        ∀ a ∈ (sortDriver cmpLt is_robust pivOr bitOr w).getD i [],
        ∀ b ∈ (sortDriver cmpLt is_robust pivOr bitOr w).getD j [], a ≤ b) := by
  by_cases hP1 : w.length = 1
  · have hdrv : sortDriver cmpLt is_robust pivOr bitOr w
        = [sortLocal cmpLt (w.getD 0 [])] := by
      unfold sortDriver
      rw [if_pos hP1]
    rw [hdrv]
    refine ⟨by simp [hP1], ?_, ?_⟩
    · intro v hv
      rw [List.mem_singleton.mp hv]
      exact sortLocal_sorted _
    · intro i j hij hj
      simp only [List.length_singleton] at hj
      omega
  · have hP2 : 2 ≤ w.length := by omega
    have hd1 : 1 ≤ Nat.log2 w.length := log2_pos hP2
    have hQ : pow2Le w.length = 2 ^ Nat.log2 w.length := rfl
    have hQle : pow2Le w.length ≤ w.length := pow2Le_le hP
    have hdrv : sortDriver cmpLt is_robust pivOr bitOr w
        = sortRecM cmpLt is_robust pivOr bitOr
            ((foldStrings w).map (sortLocal cmpLt))
          ++ List.replicate (w.length - pow2Le w.length) [] := by
      unfold sortDriver
      rw [if_neg hP1]
    have hinlen : ((foldStrings w).map (sortLocal cmpLt)).length
        = 2 ^ Nat.log2 w.length := by
      rw [List.length_map, foldStrings_length, hQ]
    have hinsorted : ∀ v ∈ (foldStrings w).map (sortLocal cmpLt),
        List.Sorted (· ≤ ·) v := by
      intro v hv
      obtain ⟨u, _, hueq⟩ := List.mem_map.mp hv
      rw [← hueq]
      exact sortLocal_sorted u
    obtain ⟨lM, sM, cM⟩ := sortRecM_main is_robust pivOr bitOr
      (Nat.log2 w.length) hd1 _ hinlen hinsorted
    rw [hdrv]
    refine ⟨?_, ?_, ?_⟩
    · rw [List.length_append, lM, List.length_replicate, ← hQ]
      omega
    · intro v hv
      rcases List.mem_append.mp hv with hv | hv
      · exact sM v hv
      · rw [List.eq_of_mem_replicate hv]
        exact List.sorted_nil
    · intro i j hij hj a ha b hb
      rw [List.length_append, lM, List.length_replicate, ← hQ] at hj
      by_cases hjq : j < pow2Le w.length
      · rw [getD_append_left _ _ _ _ (by rw [lM, ← hQ]; omega)] at ha hb
        exact cM i j hij (by rw [← hQ]; omega) a ha b hb
      · rw [getD_append_right _ _ _ _ (by rw [lM, ← hQ]; omega)] at hb
        rw [getD_replicate_nil] at hb
        exact absurd hb (List.not_mem_nil b)

/-- C1 witness: the theorem applied to two ranks holding [1] and [0]. -/
theorem sort_global_order_witness :
    (1 ≤ ([[1], [0]] : List (List ℕ)).length)
    ∧ ((sortDriver cmpLt false (fun _ => 0) (fun _ _ => false)
          ([[1], [0]] : List (List ℕ))).length = ([[1], [0]] : List (List ℕ)).length
      ∧ (∀ v ∈ sortDriver cmpLt false (fun _ => 0) (fun _ _ => false)
            ([[1], [0]] : List (List ℕ)), List.Sorted (· ≤ ·) v)
      ∧ (∀ i j, i < j →
          j < (sortDriver cmpLt false (fun _ => 0) (fun _ _ => false)
            ([[1], [0]] : List (List ℕ))).length →
          ∀ a ∈ (sortDriver cmpLt false (fun _ => 0) (fun _ _ => false)
            ([[1], [0]] : List (List ℕ))).getD i [],
          ∀ b ∈ (sortDriver cmpLt false (fun _ => 0) (fun _ _ => false)
            ([[1], [0]] : List (List ℕ))).getD j [], a ≤ b)) :=
  ⟨by decide,
    sort_global_order false (fun _ => 0) (fun _ _ => false) [[1], [0]]
      (by decide)⟩

/-- C2.  Content preservation: each recursion level of sortRec — the
partition at the separator, the pairwise exchange with the partner rank
(i + N/2) mod N, and the merge of kept and received runs — preserves the
multiset of strings over the whole process group (for every even group
size, every pivot and every draw of random bits), and consequently the
full sortRec recursion on a power-of-two group returns local buffers
whose union is the input multiset S. -/
theorem sortRec_content_preservation (lt : α → α → Bool) (is_robust : Bool)
    (pivOr : List (List α) → α) (bitOr : List (List α) → ℕ → Bool) :
    (∀ (w : List (List α)) (p : α) (bits : ℕ → Bool), w.length % 2 = 0 →
      (↑(stepM lt is_robust p bits w).flatten : Multiset α) = ↑w.flatten)
    ∧ (∀ d : ℕ, 1 ≤ d → ∀ w : List (List α), w.length = 2 ^ d →
      (↑(sortRecM lt is_robust pivOr bitOr w).flatten : Multiset α)
        = ↑w.flatten) :=
  ⟨fun w p bits h => stepM_multiset lt is_robust p bits w h,
    sortRecM_multiset lt is_robust pivOr bitOr⟩

/-- C2 witness: the theorem applied to the two-rank group [[3], [5]] with
pivot 4. -/
theorem sortRec_content_preservation_witness :
    (([[3], [5]] : List (List ℕ)).length % 2 = 0
      ∧ 1 ≤ 1 ∧ ([[3], [5]] : List (List ℕ)).length = 2 ^ 1)
    ∧ (↑(stepM cmpLt false 4 (fun _ => false)
          ([[3], [5]] : List (List ℕ))).flatten : Multiset ℕ)
        = ↑([[3], [5]] : List (List ℕ)).flatten
    ∧ (↑(sortRecM cmpLt false (fun _ => 4) (fun _ _ => false)
          ([[3], [5]] : List (List ℕ))).flatten : Multiset ℕ)
        = ↑([[3], [5]] : List (List ℕ)).flatten :=
  ⟨⟨by decide, by decide, by decide⟩,
    (sortRec_content_preservation cmpLt false (fun _ => 4)
      (fun _ _ => false)).1 [[3], [5]] 4 (fun _ => false) (by decide),
    (sortRec_content_preservation cmpLt false (fun _ => 4)
      (fun _ _ => false)).2 1 (by decide) [[3], [5]] (by decide)⟩

end Hypercube

end DSS
